import Mathlib

/-!
Verification of the pgnodemx cgroup topology resolver and virtual-file
parsing engine against its specification.

The Lean definitions below are shallow embeddings of the C functions in
`src/cgroup.c`, `src/parseutils.c` and the older all-in-one variant
`src/pgnodemx.c`.  C strings are modelled as `String`/`List Char`,
`int64` as `Int` with explicit range checks, filesystem existence probes
(`access(path, F_OK) == 0`) as a caller-supplied predicate
`fs : String → Bool`, and fallible code as `Option`.  Functions of the
PostgreSQL runtime that the code calls (`scanint8`, `SplitIdentifierString`,
`float8in_internal`, `qsort`+`qunique`, `strtok`) are modelled from their
documented semantics, since they are external to this repository.
-/

namespace Pgnodemx

/-! ### Character and string helpers -/

/-- C `isspace` / PostgreSQL `scanner_isspace` on ASCII:
space, tab, newline, vertical tab, form feed, carriage return. -/
def isSpaceChar (c : Char) : Bool :=
  c = ' ' || c = '\t' || c = '\n' || c = '\x0B' || c = '\x0C' || c = '\r'

/-- ASCII `tolower`, as used by `strcasecmp` and by PostgreSQL's
identifier downcasing. -/
def asciiLower (c : Char) : Char :=
  if 'A' ≤ c && c ≤ 'Z' then Char.ofNat (c.toNat + 32) else c

/-- Lowercase an entire string (ASCII). -/
def lowerStr (s : String) : String :=
  String.mk (s.data.map asciiLower)

/-- C `strcasecmp(a, b) == 0`. -/
def strcaseEq (a b : String) : Bool :=
  lowerStr a == lowerStr b

/-- Scanning loop of C `strtok`: accumulate non-delimiter characters
(in reverse) into `cur`; a delimiter or the end of input flushes the
accumulated token if it is nonempty. -/
def strtokGo (d : Char) : List Char → List Char → List (List Char)
  | [], cur => if cur.isEmpty then [] else [cur.reverse]
  | c :: cs, cur =>
    if c = d then
      if cur.isEmpty then strtokGo d cs []
      else cur.reverse :: strtokGo d cs []
    else strtokGo d cs (c :: cur)

/-- Tokenisation performed by C `strtok`/`strtok_r` with a single
delimiter character: maximal nonempty runs of non-delimiter characters.
Leading, trailing and repeated delimiters produce no empty tokens. -/
def strtokSplit (d : Char) (cs : List Char) : List (List Char) :=
  strtokGo d cs []

/-- Plain split on a delimiter character, keeping empty segments
(`splitChar d` of a text has one segment per delimiter plus one). -/
def splitChar (d : Char) : List Char → List (List Char)
  | [] => [[]]
  | c :: cs =>
    if c = d then [] :: splitChar d cs
    else
      match splitChar d cs with
      | t :: ts => (c :: t) :: ts
      | [] => [[c]]

/-! ### `src/parseutils.c`: read_nlsv / read_one_nlsv -/

/-- `read_nlsv` (src/parseutils.c:247): read lines of a newline-separated
values file.  The C code tokenises the raw content with
`strtok(rawstr, "\n")`. -/
def readNlsv (content : String) : List String :=
  (strtokSplit '\n' content.data).map String.mk

/-- `read_one_nlsv` (src/parseutils.c:268): exactly one line, else error. -/
def readOneNlsv (content : String) : Option String :=
  match readNlsv content with
  | [x] => some x
  | _ => none

/-- `parse_space_sep_val_file` (src/parseutils.c:540): one line, tokens
separated by spaces via `strtok_r`. -/
def parseSpaceSepValFile (content : String) : Option (List String) :=
  (readOneNlsv content).map fun line => (strtokSplit ' ' line.data).map String.mk

/-! ### PostgreSQL `scanint8` (external, modelled from utils/adt/int8.c) -/

/-- Model of PostgreSQL `scanint8(str, true, &result)`: optional leading
whitespace, optional sign, at least one digit, optional trailing
whitespace, nothing else; the value must fit in a signed 64-bit integer.
The C code accumulates negatively with a per-step overflow test; because
the accumulator is monotonically decreasing those tests are equivalent to
the final range test used here. -/
def scanint8 (s : String) : Option Int :=
  let cs := s.data.dropWhile isSpaceChar
  let sgn : Bool × List Char :=
    match cs with
    | '-' :: t => (true, t)
    | '+' :: t => (false, t)
    | t => (false, t)
  let ds := sgn.2.takeWhile Char.isDigit
  let rest := sgn.2.dropWhile Char.isDigit
  if ds.isEmpty then none
  else if ¬ (rest.dropWhile isSpaceChar).isEmpty then none
  else
    let n : Nat := ds.foldl (fun acc c => acc * 10 + (c.toNat - 48)) 0
    let v : Int := if sgn.1 then -(n : Int) else (n : Int)
    if v < -(2 ^ 63) ∨ v > 2 ^ 63 - 1 then none
    else some v

/-- Maximum representable `int64` (`PG_INT64_MAX`). -/
def pgInt64Max : Int := 2 ^ 63 - 1

/-! ### `src/parseutils.c`: get_int64_from_file / get_double_from_file -/

/-- Core of `get_int64_from_file` (src/parseutils.c:482) applied to the
single line read from the file: `strcasecmp(rawstr, "max") == 0` maps to
`PG_INT64_MAX`, otherwise `scanint8` must succeed. -/
def int64FromToken (raw : String) : Option Int :=
  if strcaseEq raw "max" then some pgInt64Max
  else scanint8 raw

/-- `get_int64_from_file` composed with the one-line read. -/
def getInt64FromFile (content : String) : Option Int :=
  (readOneNlsv content).bind int64FromToken

/-- Values of C `double` produced by `float8in_internal`, modelled
symbolically: NaN and the two infinities as tags, finite values as the
exact rational `mantissa * 10^exponent` denoted by the accepted literal.
Binary rounding of the literal is immaterial to every claim considered
here, which only concern which branch of the C code runs. -/
inductive PgFloat where
  | nanV : PgFloat
  | infV : PgFloat
  | negInfV : PgFloat
  | fin : ℚ → PgFloat
deriving DecidableEq, Repr

/-- Exact rational value of `DBL_MAX` (IEEE-754 binary64):
`(2^53 - 1) * 2^971`. -/
def dblMaxQ : ℚ := ((2 ^ 53 - 1) * 2 ^ 971 : ℤ)

/-- Nat value of a digit run. -/
def digitsVal (ds : List Char) : Nat :=
  ds.foldl (fun acc c => acc * 10 + (c.toNat - 48)) 0

/-- Decimal-literal recogniser for `strtod`: `digits [.digits]` or
`.digits`, followed by an optional well-formed exponent.  Returns the
exact rational value together with the unconsumed remainder of the
input (the exponent is consumed only when complete, as `strtod`
backtracks over a dangling `e`). -/
def strtodNum (cs : List Char) : Option (ℚ × List Char) :=
  let intds := cs.takeWhile Char.isDigit
  let afterInt := cs.dropWhile Char.isDigit
  let fracPart : List Char × List Char :=
    match afterInt with
    | '.' :: t => (t.takeWhile Char.isDigit, t.dropWhile Char.isDigit)
    | t => ([], t)
  let fracds := fracPart.1
  let afterFrac := fracPart.2
  if intds.isEmpty ∧ fracds.isEmpty then none
  else
    let mant : ℚ := (digitsVal intds : ℚ) +
      (digitsVal fracds : ℚ) / ((10 : ℚ) ^ fracds.length)
    let expParse : Option (Int × List Char) :=
      match afterFrac with
      | 'e' :: t | 'E' :: t =>
        let esgn : Bool × List Char :=
          match t with
          | '-' :: u => (true, u)
          | '+' :: u => (false, u)
          | u => (false, u)
        let eds := esgn.2.takeWhile Char.isDigit
        if eds.isEmpty then none
        else some ((if esgn.1 then -(digitsVal eds : Int) else (digitsVal eds : Int)),
                   esgn.2.dropWhile Char.isDigit)
      | _ => none
    match expParse with
    | some (e, rest) => some (mant * (10 : ℚ) ^ e, rest)
    | none => some (mant, afterFrac)

/-- Case-insensitive literal prefix match; returns the remainder. -/
def dropCaseLit : List Char → List Char → Option (List Char)
  | [], cs => some cs
  | _ :: _, [] => none
  | p :: ps, c :: cs =>
    if asciiLower c = asciiLower p then dropCaseLit ps cs else none

/-- Sign handling of a leading `-` for the plain decimal path of
`strtod` (`strtodNum` parses the unsigned literal). -/
def strtodSigned (cs : List Char) : Option (ℚ × List Char) :=
  match cs with
  | '-' :: t => (strtodNum t).map fun p => (-p.1, p.2)
  | '+' :: t => strtodNum t
  | t => strtodNum t

/-- Model of `float8in_internal(num, NULL, ...)` (PostgreSQL, external;
a verbatim static copy ships in src/parseutils.c:81 for old servers):
skip leading whitespace; accept a decimal literal or the NaN/Infinity
spellings (with optional sign, case-insensitive, `inf` or `infinity`,
which C99 `strtod` itself accepts and which the function re-checks as a
fallback — the model combines the two equivalent paths); then skip
trailing whitespace and require end of input.  The ERANGE denormal path
is not modelled (no claim depends on it). -/
def float8in (s : String) : Option PgFloat :=
  let cs := s.data.dropWhile isSpaceChar
  let parsed : Option (PgFloat × List Char) :=
    match strtodSigned cs with
    | some (q, rest) => some (.fin q, rest)
    | none =>
      let signed : Bool × List Char :=
        match cs with
        | '-' :: t => (true, t)
        | '+' :: t => (false, t)
        | t => (false, t)
      match dropCaseLit "nan".data signed.2 with
      | some rest => some (.nanV, rest)
      | none =>
        match dropCaseLit "infinity".data signed.2 with
        | some rest => some (if signed.1 then .negInfV else .infV, rest)
        | none =>
          match dropCaseLit "inf".data signed.2 with
          | some rest => some (if signed.1 then .negInfV else .infV, rest)
          | none => none
  match parsed with
  | none => none
  | some (v, rest) => if (rest.dropWhile isSpaceChar).isEmpty then some v else none

/-- Core of `get_double_from_file` (src/parseutils.c:510) applied to the
single line read from the file.  Note the comparison with `"max"` is the
case-sensitive `strcmp`, unlike the `int64` reader. -/
def doubleFromToken (raw : String) : Option PgFloat :=
  if raw = "max" then some (.fin dblMaxQ)
  else float8in raw

/-- `get_double_from_file` composed with the one-line read. -/
def getDoubleFromFile (content : String) : Option PgFloat :=
  (readOneNlsv content).bind doubleFromToken

/-! ### `src/parseutils.c`: parse_quoted_string / parse_keqv_line

`parse_quoted_string` (src/parseutils.c:363) is a `while (*src)` loop
over `(src, lastSlash, dst)`.  In the C source the recognised escape
cases (`\\`, `n`, `t`, `"`) do not advance `src`, and when `lastSlash`
is set the `switch` still examines the backslash character itself, so
the loop cannot make progress once it reaches a backslash.  The loop is
therefore modelled with explicit fuel; `none` for every fuel value means
the C loop never terminates. -/

/-- One-to-one model of the `while (*src)` loop of `parse_quoted_string`.
State: remaining input, the `lastSlash` flag, and the output accumulator
(in reverse).  Returns the decoded string and the remainder left in
`*source` when the loop exits. -/
def pqsLoop : Nat → List Char → Bool → List Char → Option (List Char × List Char)
  | 0, _, _, _ => none
  | fuel+1, src, lastSlash, dst =>
    match src with
    | [] => some (dst.reverse, [])
    | c :: rest =>
      if lastSlash then
        -- the switch sees c (still the backslash: src was not advanced)
        if c = '\\' then pqsLoop fuel src false ('\\' :: dst)
        else if c = 'n' then pqsLoop fuel src false ('\n' :: dst)
        else if c = 't' then pqsLoop fuel src false ('\t' :: dst)
        else if c = '"' then pqsLoop fuel src false ('"' :: dst)
        else pqsLoop fuel rest false (c :: dst)   -- default: *dst++ = *src++
      else
        if c = '"' ∧ rest = [] then some (dst.reverse, src)  -- break; quote not consumed
        else if c = '\\' then pqsLoop fuel src true dst      -- lastSlash set; no advance
        else pqsLoop fuel rest false (c :: dst)

/-- `parse_quoted_string` (src/parseutils.c:363): skip a leading double
quote, then run the loop. -/
def parseQuotedString (fuel : Nat) (source : List Char) : Option (List Char × List Char) :=
  let src := match source with
    | '"' :: t => t
    | t => t
  pqsLoop fuel src false []

/-- `parse_keqv_line` (src/parseutils.c:439): `strtok_r(line, "=")` for
the key, `parse_quoted_string` on the remainder, error unless exactly
two tokens result (any characters left over after the quoted-string
parse count as a third token). -/
def keqvKey (cs : List Char) : List Char :=
  (cs.dropWhile (· = '=')).takeWhile (· ≠ '=')

/-- The `lstate` remainder that `strtok_r(line, "=", &lstate)` leaves
for `parse_quoted_string`: everything after the `=` terminating the
first token (empty when the token ran to the end of the line). -/
def keqvRest (cs : List Char) : List Char :=
  match (cs.dropWhile (· = '=')).dropWhile (· ≠ '=') with
  | [] => []
  | _ :: t => t

def parseKeqvLine (fuel : Nat) (line : String) : Option (String × String) :=
  if (line.data.dropWhile (· = '=')).isEmpty then none
  else
    match parseQuotedString fuel (keqvRest line.data) with
    | none => none
    | some (val, rem) =>
      if rem.isEmpty then some (String.mk (keqvKey line.data), String.mk val) else none

/-! ### PostgreSQL `SplitIdentifierString` (external, modelled from
varlena.c): comma-separated identifier lists, with whitespace trimming,
double-quoted names (doubled quotes collapse), and ASCII downcasing plus
truncation to 63 bytes of unquoted names.  Empty unquoted names and
dangling separators are syntax errors (`none`). -/

/-- Scan a quoted name: input starts after the opening quote; returns
the name and the remainder after the closing quote.  A doubled `""`
collapses to one `"` inside the name. -/
def scanQuotedName : List Char → List Char → Option (List Char × List Char)
  | [], _ => none
  | '"' :: '"' :: t, acc => scanQuotedName t (acc ++ ['"'])
  | '"' :: t, acc => some (acc, t)
  | c :: t, acc => scanQuotedName t (acc ++ [c])

/-- After one name: skip whitespace, then require the separator (and
continue, via `next`, the main loop at the remaining fuel) or end of
string (and finish). -/
def splitIdentAfter (next : List Char → Option (List String)) (sep : Char)
    (name : String) (rest : List Char) : Option (List String) :=
  match rest.dropWhile isSpaceChar with
  | [] => some [name]
  | c :: t =>
    if c = sep then
      (next (t.dropWhile isSpaceChar)).map (name :: ·)
    else none

/-- Main loop of `SplitIdentifierString`: parse one name at the current
position (leading whitespace already consumed).  Fuel decreases once per
parsed name; every iteration consumes at least one character, so
`length + 1` fuel at the top entry is never exhausted. -/
def splitIdentGo : Nat → Char → List Char → Option (List String)
  | 0, _, _ => none
  | fuel+1, sep, cs =>
    match cs with
    | '"' :: t =>
      match scanQuotedName t [] with
      | none => none
      | some (name, rest) =>
        splitIdentAfter (splitIdentGo fuel sep) sep (String.mk name) rest
    | _ =>
      let name := cs.takeWhile fun c => ¬ (c = sep ∨ isSpaceChar c)
      let rest := cs.dropWhile fun c => ¬ (c = sep ∨ isSpaceChar c)
      if name.isEmpty then none
      else splitIdentAfter (splitIdentGo fuel sep) sep
        (String.mk ((name.map asciiLower).take 63)) rest

/-- `SplitIdentifierString(rawstring, separator, &namelist)`: leading
whitespace, empty string yields the empty list. -/
def splitIdentifierString (s : String) (sep : Char) : Option (List String) :=
  let cs := s.data.dropWhile isSpaceChar
  if cs.isEmpty then some []
  else splitIdentGo (s.data.length + 1) sep cs

/-! ### `src/cgroup.c`: heap_permute / get_list_permutations -/

/-- `swap` (src/cgroup.c:446) on a list; out-of-range indices leave the
list unchanged (the C code is only ever called in range). -/
def swapL (l : List Nat) (i j : Nat) : List Nat :=
  if h : i < l.length ∧ j < l.length then
    (l.set i (l.get ⟨j, h.2⟩)).set j (l.get ⟨i, h.1⟩)
  else l

mutual

/-- `heap_permute` (src/cgroup.c:461): Heap's algorithm over the index
array.  Returns the final array state and the emitted permutations in
emission order (the C code appends each to `arrofpermarr`).  A level-0
call, for which the C code would recurse unboundedly on `level - 1`
(size_t underflow), is unreachable from this program's callers and is
given the empty emission list. -/
def heapPermute : Nat → List Nat → List Nat × List (List Nat)
  | 0, arr => (arr, [])
  | 1, arr => (arr, [arr])
  | n+2, arr =>
    let p := heapPermute (n+1) arr
    heapLoop n (List.range (n+1)) p.1 p.2
termination_by level arr => (level + 1, 0)

/-- The `for (i = 0; i < level - 1; ++i)` loop of `heap_permute`, at
level `lv2 + 2`: parity-dependent swap, recurse one level down, continue
with the mutated array. -/
def heapLoop : Nat → List Nat → List Nat → List (List Nat) → List Nat × List (List Nat)
  | _, [], arr, acc => (arr, acc)
  | lv2, i :: rest, arr, acc =>
    let arr1 := if (lv2 + 2) % 2 = 0 then swapL arr i (lv2+1) else swapL arr 0 (lv2+1)
    let p := heapPermute (lv2+1) arr1
    heapLoop lv2 rest p.1 (acc ++ p.2)
termination_by lv2 is arr acc => (lv2 + 2, is.length + 1)

end

/-- Join a token list with commas, as the `values[i][0]` construction of
`get_list_permutations` does (first token bare, later tokens preceded by
a comma). -/
def joinComma : List String → String
  | [] => ""
  | t :: ts => ts.foldl (fun acc x => acc ++ "," ++ x) t

/-- `MAX_PERM_ARRLEN` (src/cgroup.c:515). -/
def maxPermArrLen : Nat := 10

/-- `get_list_permutations` (src/cgroup.c:516): split the controller
string with `SplitIdentifierString`, reject parse failures and lists of
more than 10 tokens (`none` models the C `return NULL`), then emit the
comma-joined token list for every index permutation produced by
`heap_permute`. -/
def getListPermutations (controller : String) : Option (List String) :=
  match splitIdentifierString controller ',' with
  | none => none
  | some toks =>
    if toks.length > maxPermArrLen then none
    else
      let idxperms := (heapPermute toks.length (List.range toks.length)).2
      some (idxperms.map fun pidx => joinComma (pidx.map fun j => toks.getD j ""))

/-! ### `src/cgroup.c`: controller path resolution -/

/-- Sentinel recorded when no candidate directory exists
(src/cgroup.c:668). -/
def controllerNotFound : String := "Controller_Not_Found"

/-- `candidate_controller_path` (src/cgroup.c:608): not containerized →
`<root>/<controller>/<r>`; containerized → `<root>/<controller>`. -/
def candidateControllerPath (ctz : Bool) (root controller r : String) : String :=
  if ¬ ctz then root ++ "/" ++ controller ++ "/" ++ r
  else root ++ "/" ++ controller

/-- `check_and_fix_controller_path` (src/cgroup.c:647).  `fs p = true`
models `access(p, F_OK) == 0`. -/
def checkAndFixControllerPath (fs : String → Bool) (ctz : Bool)
    (root controller r : String) : String :=
  let cand := candidateControllerPath ctz root controller r
  if ¬ controller.data.contains ',' then
    if fs cand then cand else controllerNotFound
  else
    if fs cand then cand
    else
      match getListPermutations controller with
      | none => controllerNotFound   -- NULL from get_list_permutations: nrow = 0
      | some perms =>
        match perms.find? (fun p => fs (candidateControllerPath ctz root p r)) with
        | some p => candidateControllerPath ctz root p r
        | none => controllerNotFound

/-! ### `src/cgroup.c`: topology table and lookup -/

/-- Sub-keys of a comma-containing stored controller key, produced by
the `strtok_r(buf, ",", &lstate)` loop of `get_cgpath_value`. -/
def splitSubkeys (controller : String) : List String :=
  (strtokSplit ',' controller.data).map String.mk

/-- Whether one stored topology entry key matches a requested key,
following `get_cgpath_value` (src/cgroup.c:898): keys without a comma
match by exact `strcmp`, keys with a comma match if any sub-token does. -/
def entryMatches (controller key : String) : Bool :=
  if controller.data.contains ',' then (splitSubkeys controller).contains key
  else controller == key

/-- `get_cgpath_value` (src/cgroup.c:898): brute-force scan of the
topology table; `none` models the `ereport(ERROR, ...)` on a missing
controller. -/
def getCgpathValue : List (String × String) → String → Option String
  | [], _ => none
  | (controller, path) :: rest, key =>
    if controller.data.contains ',' then
      if (splitSubkeys controller).contains key then some path
      else getCgpathValue rest key
    else
      if controller == key then some path
      else getCgpathValue rest key

/-- `get_fq_cgroup_path` (src/cgroup.c:91), applied to the filename
already vetted by `convert_and_check_filename` (the external
filename-safety gate): reject filenames without a `.`, otherwise look up
the prefix before the first `.` as the controller key and prepend its
path. -/
def getFqCgroupPath (cgpath : List (String × String)) (fname : String) : Option String :=
  if fname.data.contains '.' then
    let controller := String.mk (fname.data.takeWhile (· ≠ '.'))
    (getCgpathValue cgpath controller).map fun v => v ++ "/" ++ fname
  else none

/-- `create_default_cgpath` (src/cgroup.c:379): append the synthetic
entry keyed `"cgroup"`, with the supplied path or the
`"Default_Controller_Not_Found"` sentinel when the memory controller was
never resolved (`str == NULL`). -/
def createDefaultCgpath (str : Option String) : String × String :=
  ("cgroup", str.getD "Default_Controller_Not_Found")

/-- `create_default_cgpath` of the older all-in-one variant
(src/pgnodemx.c:788): the synthetic entry is keyed `"default"` (and that
variant passes the path through unguarded). -/
def createDefaultCgpathOld (str : String) : String × String :=
  ("default", str)

/-- `#:<controller>:/<relative_path>` line parsing inside `set_cgpath`
(src/cgroup.c:768): the controller key is the text between the first two
colons (after an optional `name=` prefix, keep only the part after the
first `=`), and the relative path starts two characters after the second
colon (skipping `:` and `/`). -/
def parseCgroupV1Line (line : String) : Option (String × String) :=
  let cs := line.data
  if ¬ cs.contains ':' then none
  else
    let p := (cs.dropWhile (· ≠ ':')).tail   -- after the first ':'
    if ¬ p.contains ':' then none
    else
      let c := p.takeWhile (· ≠ ':')
      let d := (p.dropWhile (· ≠ ':')).tail  -- after the second ':'
      let controller := if c.contains '=' then (c.dropWhile (· ≠ '=')).tail else c
      some (String.mk controller, String.mk (d.tail))  -- r = second ':' + 2

/-- Body of the `for` loop of the cgroup-v1 branch of `set_cgpath`
(src/cgroup.c:768..821): accumulate `(key, path)` entries and track the
last path whose controller is `memory` (case-insensitively). -/
def setCgpathV1Go (fs : String → Bool) (ctz : Bool) (root : String) :
    List String → List (String × String) → Option String →
    Option (List (String × String))
  | [], acc, defpath => some (acc ++ [createDefaultCgpath defpath])
  | line :: rest, acc, defpath =>
    match parseCgroupV1Line line with
    | none => none
    | some (controller, r) =>
      let path := checkAndFixControllerPath fs ctz root controller r
      setCgpathV1Go fs ctz root rest (acc ++ [(controller, path)])
        (if strcaseEq controller "memory" then some path else defpath)

/-- Cgroup-v1 branch of `set_cgpath` (src/cgroup.c:743): one topology
entry per line of `/proc/self/cgroup` (contents passed here as `lines`),
then the synthetic default entry.  `none` models the errors raised on an
empty or malformed file. -/
def setCgpathV1 (fs : String → Bool) (ctz : Bool) (root : String)
    (lines : List String) : Option (List (String × String)) :=
  if lines.isEmpty then none
  else setCgpathV1Go fs ctz root lines [] none

/-- Cgroup-v2 branch of `set_cgpath` (src/cgroup.c:825): one shared base
directory (from the single self-cgroup line, skipping the 4-character
`0::/` prefix, or the root itself when containerized), one entry per
token of `cgroup.controllers`, then the synthetic default entry. -/
def setCgpathV2 (ctz : Bool) (root : String)
    (selfContent controllersContent : String) : Option (List (String × String)) :=
  (readOneNlsv selfContent).bind fun rawstr =>
    let defpath := if ¬ ctz then root ++ "/" ++ String.mk (rawstr.data.drop 4) else root
    (parseSpaceSepValFile controllersContent).map fun controllers =>
      controllers.map (fun c => (c, defpath)) ++ [createDefaultCgpath (some defpath)]

/-! ### `src/cgroup.c`: set_cgmode -/

/-- `CGROUP2_SUPER_MAGIC` (linux/magic.h, also src/cgroup.c:36). -/
def cgroup2SuperMagic : Nat := 0x63677270

/-- `TMPFS_MAGIC` (linux/magic.h). -/
def tmpfsMagic : Nat := 0x01021994

/-- Mode string `CGROUP_V1` (src/cgroup.h:34). -/
def cgroupV1 : String := "legacy"

/-- Mode string `CGROUP_V2` (src/cgroup.h:35). -/
def cgroupV2 : String := "unified"

/-- Mode string `CGROUP_HYBRID` (src/cgroup.h:36). -/
def cgroupHybrid : String := "hybrid"

/-- Modelled from the spec: the `CGROUP_DISABLED` mode string.  The
macro is used by src/cgroup.c but its `#define` is not among the given
sources; the spec calls the mode `Disabled`, and no claim depends on the
exact spelling. -/
def cgroupDisabled : String := "disabled"

/-- `set_cgmode` (src/cgroup.c:277).  Inputs: the `pgnodemx.cgroup_enabled`
GUC, the `statfs` result on the cgroup root (`none` = probe error),
the `statfs` result on `<root>/unified`, and the line count of
`/proc/self/cgroup`.  Returns the mode string and the function's boolean
result. -/
def setCgmode (enabled : Bool) (rootFtype : Option Nat) (unifiedFtype : Option Nat)
    (selfNlines : Nat) : String × Bool :=
  if ¬ enabled then (cgroupDisabled, false)
  else
    match rootFtype with
    | none => (cgroupDisabled, false)
    | some t =>
      if t = cgroup2SuperMagic then
        if selfNlines ≠ 1 then (cgroupHybrid, false) else (cgroupV2, true)
      else if t = tmpfsMagic then
        match unifiedFtype with
        | some u => if u = cgroup2SuperMagic then (cgroupHybrid, false) else (cgroupV1, true)
        | none => (cgroupV1, true)
      else (cgroupDisabled, false)

/-! ### `src/cgroup.c`: cgmembers -/

/-- Scanning loop of `qunique` (lib/qunique.h): `prev` is the last
element kept; equal successors are skipped. -/
def uniqAdjGo (prev : Int) : List Int → List Int
  | [] => []
  | b :: t => if b = prev then uniqAdjGo prev t else b :: uniqAdjGo b t

/-- `qunique` on an already-sorted list: keep the first element of every
run of equal elements. -/
def uniqAdj : List Int → List Int
  | [] => []
  | a :: t => a :: uniqAdjGo a t

/-- `cgmembers` (src/cgroup.c:120) applied to the contents of
`cgroup.procs`: error on an empty file, parse every line with
`scanint8` (error on failure), `qsort` ascending with `int64_cmp`,
remove duplicates with `qunique`.  Returns the deduplicated ascending
pid list (the C function returns its length and stores the array). -/
def cgmembers (content : String) : Option (List Int) :=
  let lines := readNlsv content
  if lines.isEmpty then none
  else
    (lines.mapM scanint8).map fun pids =>
      uniqAdj (pids.mergeSort fun a b => decide (a ≤ b))

/-! ### Specification-side description of Heap's algorithm runs

The following definitions give closed forms for the array state of
`heap_permute`.  They are not translations of C code; they are the
statements proved about `heapPermute` below (final state after a
complete level-`k` run, and the sequence of array states at which the
level-`(k-1)` sub-runs start). -/

/-- Index-source map of the final array state of an even-level run
(`k ≥ 4`): position `p` of the final state holds the element that
started at position `evenSrc k p`. -/
def evenSrc (k p : Nat) : Nat :=
  if p = 0 then k-3
  else if p = 1 then k-2
  else if p ≤ k-3 then p-1
  else if p = k-2 then k-1
  else 0

/-- Final array state of a complete level-`k` run of `heap_permute`:
identity for `k ≤ 1`, the transposition of positions `0` and `k-1` for
odd `k`, the swap of the two elements for `k = 2`, and the `evenSrc`
rearrangement of the prefix for even `k ≥ 4`. -/
def heapFinal (k : Nat) (l : List Nat) : List Nat :=
  if k ≤ 1 then l
  else if k % 2 = 1 then swapL l 0 (k-1)
  else if k = 2 then swapL l 0 1
  else (List.range k).map (fun p => l.getD (evenSrc k p) 0) ++ l.drop k

/-- The swap applied by iteration `i` of the level-`k` loop. -/
def stepArr (k i : Nat) (a : List Nat) : List Nat :=
  if k % 2 = 0 then swapL a i (k-1) else swapL a 0 (k-1)

/-- Array state at which the `t`-th level-`(k-1)` sub-run of a level-`k`
run starts (`t = 0` is the initial sub-run; sub-run `t+1` starts from
the final state of sub-run `t` after the loop's swap). -/
def blockStarts (k : Nat) (l : List Nat) : Nat → List Nat
  | 0 => l
  | t+1 => stepArr k t (heapFinal (k-1) (blockStarts k l t))

/-- Position-source map of one loop step at odd level `k ≥ 5`: position
`q` of `blockStarts k l (t+1)` holds the element at position
`sMap k q` of `blockStarts k l t`. -/
def sMap (k q : Nat) : Nat :=
  if q ≥ k then q
  else if q = 0 then k-1
  else if q = 1 then k-3
  else if q ≤ k-4 then q-1
  else if q = k-3 then k-2
  else if q = k-2 then 0
  else k-4

/-- Iterates of `sMap` (applied innermost-first, matching the step
recurrence of `blockStarts`). -/
def sIter (k : Nat) : Nat → Nat → Nat
  | 0, q => q
  | i+1, q => sIter k i (sMap k q)

/-- The inverse of `sMap` on `[0, k)`. -/
def sInv (k q : Nat) : Nat :=
  if q ≥ k then q
  else if q = k-1 then 0
  else if q = k-3 then 1
  else if q+3 ≤ k-2 ∧ 1 ≤ q then q+1
  else if q = k-2 then k-3
  else if q = 0 then k-2
  else k-1

/-- Orbit of position `k-1` under `sMap` at odd level `k ≥ 5`:
`wOdd k i = sIter k i (k-1)`, in closed form. -/
def wOdd (k i : Nat) : Nat :=
  if i = 0 then k-1
  else if i ≤ k-4 then k-3-i
  else if i = k-3 then k-3
  else if i = k-2 then k-2
  else 0

/-- Position of `q` along the `wOdd` orbit (the inverse of `wOdd` on
`[0, k)`). -/
def wOddInv (k q : Nat) : Nat :=
  if q = k-1 then 0
  else if 1 ≤ q ∧ q ≤ k-4 then k-3-q
  else if q = k-3 then k-3
  else if q = k-2 then k-2
  else k-1

/-- Index in `l` of the element at position `p` of `blockStarts k l j`
at even level `k ≥ 4`, in closed form (position `k-1` of sub-run `j ≥ 1`
holds the element started at `k-2` for `j = 1`, at `j-1` for later
`j ≤ k-2`, at `0` for `j = k-1`). -/
def uEvenIdx (k j p : Nat) : Nat :=
  if p ≥ k then p
  else if j = 0 then p
  else if p = k-1 then (if j = 1 then k-2 else if j ≤ k-2 then j-1 else 0)
  else if p = 0 then (if j % 2 = 1 then k-1 else 0)
  else if p = k-2 then
    (if j = k-1 then k-3 else if j % 2 = 1 then 0 else k-1)
  else if p < j then (if p = 1 then k-2 else p-1)
  else p

/-- Source position in `blockStarts k l j` of position `p` of
`blockStarts k l (j+1)` at even level `k`: composition of the loop's
`swap(j, k-1)` with the odd sub-final `swap(0, k-2)`. -/
def eSrcStep (k j p : Nat) : Nat :=
  if p = k-1 then
    (if j = k-2 then 0 else if j = 0 then k-2 else j)
  else if p = j then
    (if k-1 = k-2 then 0 else if k-1 = 0 then k-2 else k-1)
  else
    (if p = k-2 then 0 else if p = 0 then k-2 else p)

end Pgnodemx

namespace Pgnodemx

/-! ## Theorems -/

/-! ### Structure of `splitChar` and `strtokSplit` (claim C5) -/

theorem splitChar_ne_nil (d : Char) (cs : List Char) : splitChar d cs ≠ [] := by
  cases cs with
  | nil => simp [splitChar]
  | cons c cs =>
    by_cases h : c = d
    · simp [splitChar, h]
    · simp only [splitChar, h, if_false]
      cases splitChar d cs <;> simp

theorem strtokGo_spec (d : Char) :
    ∀ (cs cur : List Char),
      strtokGo d cs cur =
        (match splitChar d cs with
         | h :: ts =>
           (if (cur.reverse ++ h).isEmpty then [] else [cur.reverse ++ h]) ++
             ts.filter (fun t => !t.isEmpty)
         | [] => []) := by
  intro cs
  induction cs with
  | nil =>
    intro cur
    simp only [strtokGo, splitChar, List.append_nil]
    by_cases h : cur.isEmpty <;> simp_all
  | cons c cs ih =>
    intro cur
    by_cases h : c = d
    · subst h
      have hgo : strtokGo c (c :: cs) cur =
          if cur.isEmpty then strtokGo c cs [] else cur.reverse :: strtokGo c cs [] := by
        simp [strtokGo]
      have hsp : splitChar c (c :: cs) = [] :: splitChar c cs := by simp [splitChar]
      rw [hgo, ih [], hsp]
      match hs : splitChar c cs with
      | [] => exact absurd hs (splitChar_ne_nil c cs)
      | h' :: ts =>
        have hA : ((if (([] : List Char).reverse ++ h').isEmpty then [] else [([] : List Char).reverse ++ h']) ++
            ts.filter (fun t => !t.isEmpty)) = (h' :: ts).filter (fun t => !t.isEmpty) := by
          by_cases hh : h'.isEmpty <;> simp [List.filter_cons, hh]
        dsimp only
        rw [hA]
        by_cases hc : cur.isEmpty
        · have hcur : cur = [] := List.isEmpty_iff.mp hc
          subst hcur
          simp
        · have hcur : ¬ cur.reverse.isEmpty = true := by
            simp only [List.isEmpty_iff] at hc ⊢
            simpa using hc
          simp [hc, hcur]
    · have hgo : strtokGo d (c :: cs) cur = strtokGo d cs (c :: cur) := by
        simp [strtokGo, h]
      rw [hgo, ih (c :: cur)]
      have hsp : splitChar d (c :: cs) =
          (match splitChar d cs with
           | t :: ts => (c :: t) :: ts
           | [] => [[c]]) := by
        simp [splitChar, h]
      rw [hsp]
      match hs : splitChar d cs with
      | [] => exact absurd hs (splitChar_ne_nil d cs)
      | h' :: ts =>
        have h1 : (cur.reverse ++ (c :: h')).isEmpty = false := by
          simp [List.isEmpty_iff]
        have h2 : ((c :: cur).reverse ++ h').isEmpty = false := by
          simp [List.isEmpty_iff]
        simp only [h1, h2, Bool.false_eq_true, if_false, List.reverse_cons,
          List.append_assoc, List.singleton_append]

theorem strtokSplit_eq_filter (d : Char) (cs : List Char) :
    strtokSplit d cs = (splitChar d cs).filter (fun t => !t.isEmpty) := by
  unfold strtokSplit
  rw [strtokGo_spec]
  match hs : splitChar d cs with
  | [] => exact absurd hs (splitChar_ne_nil d cs)
  | h :: ts =>
    simp only [List.reverse_nil, List.nil_append, List.filter]
    by_cases h1 : h.isEmpty
    · simp [h1]
    · simp [h1]

/-- Claim C5 (amended): `read_nlsv` returns exactly the nonempty
segments of the newline split — `strtok` drops every empty segment
(leading, interior, and trailing), not only a trailing one. -/
theorem readNlsv_eq_filtered_split (s : String) :
    readNlsv s = ((splitChar '\n' s.data).filter fun t => !t.isEmpty).map String.mk := by
  unfold readNlsv
  rw [strtokSplit_eq_filter]

/-- Claim C5 (counterexample): on input `"a\n\nb"` the claim as stated
predicts the interior empty line to be preserved (`["a", "", "b"]`), but
`read_nlsv` drops it. -/
theorem readNlsv_counterexample :
    readNlsv "a\n\nb" = ["a", "b"] ∧ readNlsv "a\n\nb" ≠ ["a", "", "b"] := by
  constructor
  · rfl
  · decide

/-! ### Numeric normalizer (claim C4) -/

theorem takeWhile_isEmpty_of_head {p : Char → Bool} :
    ∀ l : List Char, (∀ c ∈ l, ¬ p c) → (l.takeWhile p).isEmpty = true := by
  intro l h
  cases l with
  | nil => rfl
  | cons c t =>
    have : p c = false := by
      have := h c (by simp)
      simpa using this
    simp [List.takeWhile_cons, this]

theorem scanint8_none_of_no_digit (s : String) (h : ∀ c ∈ s.data, ¬ c.isDigit) :
    scanint8 s = none := by
  unfold scanint8
  have hsub : ∀ c ∈ s.data.dropWhile isSpaceChar, ¬ c.isDigit :=
    fun c hc => h c ((List.dropWhile_sublist _).subset hc)
  match hcs : s.data.dropWhile isSpaceChar with
  | [] => rfl
  | c :: t =>
    have ht : ∀ x ∈ t, ¬ x.isDigit := fun x hx => by
      apply hsub x
      rw [hcs]
      exact List.mem_cons_of_mem c hx
    have hct : ∀ x ∈ c :: t, ¬ x.isDigit := by rw [← hcs]; exact hsub
    by_cases hminus : c = '-'
    · subst hminus
      simp only []
      rw [if_pos]
      simp [takeWhile_isEmpty_of_head t ht]
    · by_cases hplus : c = '+'
      · subst hplus
        simp only []
        rw [if_pos]
        simp [takeWhile_isEmpty_of_head t ht]
      · simp only []
        rw [if_pos]
        have : (match c :: t with
            | '-' :: t => (true, t)
            | '+' :: t => (false, t)
            | t => (false, t)) = ((false, c :: t) : Bool × List Char) := by
          simp [hminus, hplus]
        rw [this]
        simp [takeWhile_isEmpty_of_head (c :: t) hct]

/-- Claim C4 (counterexample): the claim asserts `ToFloat64` maps the
token `"MAX"` (case-insensitively equal to `"max"`) to the maximum
representable double; `get_double_from_file` compares with the
case-sensitive `strcmp` and rejects `"MAX"` with a parse error, while
the `int64` reader does accept it. -/
theorem doubleFromToken_MAX_counterexample :
    doubleFromToken "MAX" = none ∧
    doubleFromToken "MAX" ≠ some (PgFloat.fin dblMaxQ) ∧
    int64FromToken "MAX" = some pgInt64Max := by
  refine ⟨rfl, by decide, by decide⟩

/-- Claim C4 (amended): `ToInt64` maps any token case-insensitively
equal to `"max"` to the maximum int64 and fails on non-numeric content;
`ToFloat64` special-cases only the exact lowercase token `"max"`
(case-sensitive `strcmp`), mapping it to the maximum representable
double; every other token — including `"MAX"` — is parsed as a floating
literal, accepting the NaN/Infinity spellings. -/
theorem numericNormalizer_spec :
    (∀ s : String, lowerStr s = "max" → int64FromToken s = some pgInt64Max) ∧
    (∀ s : String, lowerStr s ≠ "max" → int64FromToken s = scanint8 s) ∧
    (∀ s : String, (∀ c ∈ s.data, ¬ c.isDigit) → scanint8 s = none) ∧
    doubleFromToken "max" = some (PgFloat.fin dblMaxQ) ∧
    (∀ s : String, s ≠ "max" → doubleFromToken s = float8in s) ∧
    float8in "NaN" = some PgFloat.nanV ∧
    float8in "nan" = some PgFloat.nanV ∧
    float8in "Infinity" = some PgFloat.infV ∧
    float8in "-Infinity" = some PgFloat.negInfV ∧
    float8in "inf" = some PgFloat.infV ∧
    (∃ q : ℚ, float8in "1.5" = some (PgFloat.fin q) ∧ q = 3 / 2) := by
  refine ⟨?_, ?_, scanint8_none_of_no_digit, rfl, ?_, ?_, ?_, ?_, ?_, ?_, ?_⟩
  · intro s h
    unfold int64FromToken strcaseEq
    rw [h]
    rfl
  · intro s h
    unfold int64FromToken strcaseEq
    have : (lowerStr s == lowerStr "max") = false := by
      have hm : lowerStr "max" = "max" := rfl
      rw [hm]
      exact beq_eq_false_iff_ne.mpr h
    simp [this]
  · intro s h
    unfold doubleFromToken
    rw [if_neg h]
  · decide
  · decide
  · decide
  · decide
  · decide
  · refine ⟨_, rfl, ?_⟩
    norm_num [digitsVal, show List.takeWhile Char.isDigit ['1', '.', '5'] = ['1'] from rfl,
      show List.dropWhile Char.isDigit ['1', '.', '5'] = ['.', '5'] from rfl,
      show List.takeWhile Char.isDigit ['5'] = ['5'] from rfl,
      show List.foldl (fun acc c => acc * 10 + (c.toNat - 48)) 0 ['1'] = 1 from rfl,
      show List.foldl (fun acc c => acc * 10 + (c.toNat - 48)) 0 ['5'] = 5 from rfl]

/-- Claim C4 witness: the amended theorem applied to the concrete tokens
`"MAX"` (int64 reader, case-insensitive hit) and `"MAX"` (float reader,
case-sensitive miss). -/
theorem numericNormalizer_spec_witness :
    lowerStr "MAX" = "max" ∧ int64FromToken "MAX" = some pgInt64Max ∧
    ("MAX" : String) ≠ "max" ∧ doubleFromToken "MAX" = float8in "MAX" :=
  ⟨by decide, numericNormalizer_spec.1 "MAX" (by decide), by decide,
    numericNormalizer_spec.2.2.2.2.1 "MAX" (by decide)⟩

/-! ### Controller key from the filename (claim C10) -/

/-- Claim C10: the controller key is the prefix of the caller-supplied
filename before its first `.`, and a filename containing no `.` is
rejected before any topology lookup (the result is `none` for every
table). -/
theorem getFqCgroupPath_spec :
    (∀ (table : List (String × String)) (fname : String),
        fname.data.contains '.' = false → getFqCgroupPath table fname = none) ∧
    (∀ (table : List (String × String)) (pre post : String),
        pre.data.contains '.' = false →
        getFqCgroupPath table (pre ++ "." ++ post) =
          (getCgpathValue table pre).map fun v => v ++ "/" ++ (pre ++ "." ++ post)) := by
  constructor
  · intro table fname h
    unfold getFqCgroupPath
    simp only [h, Bool.false_eq_true, if_false]
  · intro table pre post h
    have hdot : '.' ∉ pre.data := by
      intro hmem
      rw [List.contains_eq_any_beq] at h
      have : pre.data.any ('.' == ·) = true :=
        List.any_eq_true.mpr ⟨'.', hmem, by simp⟩
      rw [this] at h
      exact Bool.noConfusion h
    have hdata : (pre ++ "." ++ post).data = pre.data ++ '.' :: post.data := by
      rw [String.data_append, String.data_append]
      rw [show ("." : String).data = ['.'] from rfl, List.append_assoc]
      rfl
    have hcontains : (pre ++ "." ++ post).data.contains '.' = true := by
      rw [hdata, List.contains_eq_any_beq]
      exact List.any_eq_true.mpr ⟨'.', by simp, by simp⟩
    have htake : ((pre ++ "." ++ post).data.takeWhile (· ≠ '.')) = pre.data := by
      rw [hdata, List.takeWhile_append_of_pos (fun a ha => by
        simp only [ne_eq, decide_eq_true_eq]
        exact fun he => hdot (he ▸ ha))]
      simp [List.takeWhile_cons]
    unfold getFqCgroupPath
    rw [if_pos hcontains, htake]

/-- Claim C10 witness: the theorem applied to a concrete table and to
the filename `"memory" ++ "." ++ "stat"`. -/
theorem getFqCgroupPath_spec_witness :
    ("nodots" : String).data.contains '.' = false ∧
    getFqCgroupPath [("memory", "/m")] "nodots" = none ∧
    ("memory" : String).data.contains '.' = false ∧
    getFqCgroupPath [("memory", "/m")] ("memory" ++ "." ++ "stat") =
      (getCgpathValue [("memory", "/m")] "memory").map
        (fun v => v ++ "/" ++ ("memory" ++ "." ++ "stat")) :=
  ⟨by decide, getFqCgroupPath_spec.1 [("memory", "/m")] "nodots" (by decide),
    by decide, getFqCgroupPath_spec.2 [("memory", "/m")] "memory" "stat" (by decide)⟩

/-! ### Mode detection (claim C7) -/

/-- Claim C7: mode detection maps probe outcomes to modes: the
cgroup-v2 signature on the root yields Unified, overridden to Hybrid
when the self-cgroup file does not have exactly one line; the tmpfs
signature yields Hybrid when `<root>/unified` probes as cgroup-v2 and
Legacy otherwise; a disabled flag, a failed root probe, or any other
signature yields Disabled — `set_cgmode` is total, never a hard
failure. -/
theorem setCgmode_spec (en : Bool) (rf uf : Option Nat) (n : Nat) :
    (en = false → setCgmode en rf uf n = (cgroupDisabled, false)) ∧
    (en = true → rf = none → setCgmode en rf uf n = (cgroupDisabled, false)) ∧
    (en = true → rf = some cgroup2SuperMagic →
      (n = 1 → setCgmode en rf uf n = (cgroupV2, true)) ∧
      (n ≠ 1 → setCgmode en rf uf n = (cgroupHybrid, false))) ∧
    (en = true → rf = some tmpfsMagic →
      (uf = some cgroup2SuperMagic → setCgmode en rf uf n = (cgroupHybrid, false)) ∧
      (uf ≠ some cgroup2SuperMagic → setCgmode en rf uf n = (cgroupV1, true))) ∧
    (∀ t, en = true → rf = some t → t ≠ cgroup2SuperMagic → t ≠ tmpfsMagic →
      setCgmode en rf uf n = (cgroupDisabled, false)) := by
  refine ⟨?_, ?_, ?_, ?_, ?_⟩
  · intro h
    subst h
    rfl
  · intro he hr
    subst he
    subst hr
    rfl
  · intro he hr
    subst he
    subst hr
    constructor
    · intro hn
      subst hn
      rfl
    · intro hn
      simp [setCgmode, hn]
  · intro he hr
    subst he
    subst hr
    constructor
    · intro hu
      subst hu
      simp [setCgmode, cgroup2SuperMagic, tmpfsMagic]
    · intro hu
      match uf with
      | none => simp [setCgmode, cgroup2SuperMagic, tmpfsMagic]
      | some u =>
        have hne : u ≠ cgroup2SuperMagic := fun h => hu (by rw [h])
        simp only [cgroup2SuperMagic] at hne
        simp [setCgmode, cgroup2SuperMagic, tmpfsMagic, hne]
  · intro t he hr h2 ht
    subst he
    subst hr
    simp [setCgmode, h2, ht]

/-- Claim C7 witness: the four probe scenarios of the spec evaluated
concretely through the theorem. -/
theorem setCgmode_spec_witness :
    setCgmode true (some 0x63677270) none 1 = (cgroupV2, true) ∧
    setCgmode true (some 0x01021994) (some 0x63677270) 1 = (cgroupHybrid, false) ∧
    setCgmode true (some 0x01021994) none 1 = (cgroupV1, true) ∧
    setCgmode true (some 5) none 1 = (cgroupDisabled, false) ∧
    setCgmode false (some 5) none 1 = (cgroupDisabled, false) :=
  ⟨((setCgmode_spec true (some 0x63677270) none 1).2.2.1 rfl rfl).1 rfl,
    ((setCgmode_spec true (some 0x01021994) (some 0x63677270) 1).2.2.2.1 rfl rfl).1 rfl,
    ((setCgmode_spec true (some 0x01021994) none 1).2.2.2.1 rfl rfl).2 (by decide),
    (setCgmode_spec true (some 5) none 1).2.2.2.2 5 rfl rfl (by decide) (by decide),
    (setCgmode_spec false (some 5) none 1).1 rfl⟩

/-! ### Quoted key/value parsing (claim C6) -/

theorem pqsLoop_stuck_at_backslash (rest : List Char) :
    ∀ (fuel : Nat) (b : Bool) (dst : List Char),
      pqsLoop fuel ('\\' :: rest) b dst = none := by
  intro fuel
  induction fuel with
  | zero => intro b dst; rfl
  | succ fuel ih =>
    intro b dst
    cases b with
    | true => simp [pqsLoop, ih]
    | false => simp [pqsLoop, ih]

theorem pqsLoop_none_of_clean_then_backslash :
    ∀ (pre : List Char), (∀ c ∈ pre, c ≠ '\\' ∧ c ≠ '"') →
      ∀ (fuel : Nat) (rest dst : List Char),
        pqsLoop fuel (pre ++ '\\' :: rest) false dst = none := by
  intro pre
  induction pre with
  | nil =>
    intro _ fuel rest dst
    exact pqsLoop_stuck_at_backslash rest fuel false dst
  | cons c pre ih =>
    intro h fuel rest dst
    have hc := h c (by simp)
    match fuel with
    | 0 => rfl
    | fuel + 1 =>
      have hq : ¬ (c = '"' ∧ pre ++ '\\' :: rest = []) := by
        rintro ⟨h1, -⟩
        exact hc.2 h1
      simp only [pqsLoop, List.cons_append]
      rw [if_neg (show ¬ ((false : Bool) = true) from by decide)]
      rw [if_neg hq, if_neg hc.1]
      exact ih (fun x hx => h x (by simp [hx])) fuel rest (c :: dst)

/-- Claim C6 (code_bug): the escape-decoding loop of
`parse_quoted_string` never advances past a backslash — the recognised
escape cases omit `src++` and the `switch` re-examines the backslash
itself — so on the spec's own example `multiline="multi\nline"` the C
code never returns (`none` for every fuel bound).  Moreover the
trailing-quote `break` leaves `*source` pointing at the closing quote,
so even the escape-free example `cluster="test-cluster1"` fails
`parse_keqv_line`'s two-token check instead of yielding
`("cluster", "test-cluster1")`. -/
theorem parseQuotedString_loops_forever :
    (∀ fuel : Nat, parseQuotedString fuel ("\"multi\\nline\"".data) = none) ∧
    (∀ fuel : Nat, parseKeqvLine fuel "multiline=\"multi\\nline\"" = none) ∧
    parseQuotedString 100 ("\"test-cluster1\"".data) =
      some ("test-cluster1".data, ['"']) ∧
    parseKeqvLine 100 "cluster=\"test-cluster1\"" = none := by
  have hq : ∀ fuel : Nat, parseQuotedString fuel ("\"multi\\nline\"".data) = none := by
    intro fuel
    unfold parseQuotedString
    exact pqsLoop_none_of_clean_then_backslash ['m', 'u', 'l', 't', 'i'] (by decide)
      fuel ('n' :: "line\"".data) []
  refine ⟨hq, ?_, by rfl, by rfl⟩
  intro fuel
  unfold parseKeqvLine
  rw [if_neg (show ¬ ((("multiline=\"multi\\nline\"" : String).data.dropWhile
        (· = '=')).isEmpty = true) from by decide)]
  rw [show keqvRest ("multiline=\"multi\\nline\"" : String).data =
        ("\"multi\\nline\"" : String).data from by decide]
  rw [hq fuel]

/-! ### Topology lookup (claims C2, C3) -/

/-- Claim C2: `get_cgpath_value` returns the path of the first topology
entry whose key matches the request — exact equality for comma-free
keys, any sub-token for comma-joined keys — and fails (`none`, the hard
`ereport(ERROR)`) exactly when no entry matches; by contrast a
resolution-time miss never fails: with no path existing on disk,
`check_and_fix_controller_path` records the sentinel string. -/
theorem getCgpathValue_spec :
    (∀ (table : List (String × String)) (key : String),
        getCgpathValue table key =
          (table.find? fun e => entryMatches e.1 key).map Prod.snd) ∧
    (∀ (ctz : Bool) (root controller r : String),
        checkAndFixControllerPath (fun _ => false) ctz root controller r =
          controllerNotFound) := by
  constructor
  · intro table key
    induction table with
    | nil => rfl
    | cons e rest ih =>
      obtain ⟨controller, path⟩ := e
      by_cases h1 : ',' ∈ controller.data
      · by_cases h2 : key ∈ splitSubkeys controller
        · simp [getCgpathValue, entryMatches, h1, h2, List.find?_cons]
        · simp [getCgpathValue, entryMatches, h1, h2, List.find?_cons, ih]
      · by_cases h2 : controller = key
        · subst h2
          simp [getCgpathValue, entryMatches, h1, List.find?_cons]
        · simp [getCgpathValue, entryMatches, h1, h2, List.find?_cons, ih]
  · intro ctz root controller r
    unfold checkAndFixControllerPath
    by_cases h : ',' ∈ controller.data
    · rw [if_neg (by simpa using h)]
      rw [if_neg (by simp)]
      cases hgl : getListPermutations controller with
      | none => rfl
      | some perms =>
        have hfind : List.find?
            (fun p => (fun _ => (false : Bool)) (candidateControllerPath ctz root p r))
            perms = none := List.find?_eq_none.mpr (fun x _ => by simp)
        simp [hfind]
    · rw [if_pos (by simpa using h)]
      rw [if_neg (by simp)]

/-! ### Claim C3: member-token lookup versus joined-key lookup -/

theorem splitChar_no_delim (d : Char) :
    ∀ (cs : List Char), ∀ t ∈ splitChar d cs, d ∉ t := by
  intro cs
  induction cs with
  | nil =>
    intro t ht
    simp [splitChar] at ht
    simp [ht]
  | cons c cs ih =>
    intro t ht
    by_cases h : c = d
    · subst h
      simp only [splitChar, if_true] at ht
      rcases List.mem_cons.mp ht with h1 | h1
      · simp [h1]
      · exact ih t h1
    · simp only [splitChar, h, if_false] at ht
      match hs : splitChar d cs with
      | [] => exact absurd hs (splitChar_ne_nil d cs)
      | h' :: ts =>
        rw [hs] at ht
        rcases List.mem_cons.mp ht with h1 | h1
        · subst h1
          intro hmem
          rcases List.mem_cons.mp hmem with h2 | h2
          · exact h h2.symm
          · exact ih h' (hs ▸ List.mem_cons_self h' ts) h2
        · exact ih t (hs ▸ List.mem_cons_of_mem h' h1)

theorem strtokSplit_no_delim (d : Char) (cs : List Char) :
    ∀ t ∈ strtokSplit d cs, d ∉ t := by
  intro t ht
  rw [strtokSplit_eq_filter] at ht
  exact splitChar_no_delim d cs t (List.mem_of_mem_filter ht)

/-- Claim C3 (counterexample): with the single topology entry
`("cpu,cpuacct", "/a")`, looking up the member tokens returns the path
but looking up the full joined key fails, contradicting the claimed
round-trip equality. -/
theorem memberLookup_counterexample :
    getCgpathValue [("cpu,cpuacct", "/a")] "cpu" = some "/a" ∧
    getCgpathValue [("cpu,cpuacct", "/a")] "cpuacct" = some "/a" ∧
    getCgpathValue [("cpu,cpuacct", "/a")] "cpu,cpuacct" = none := by
  refine ⟨by decide, by decide, by decide⟩

/-- Claim C3 (amended): for a topology entry whose stored key is a
comma-joined token list `T`, looking up any member token returns that
entry's path (when no earlier entry matches the token); but a
comma-containing stored key never matches the joined key `T` itself —
lookup compares only the comma-split sub-tokens, never the whole key —
so `ResolvePath(T)` fails unless some other entry happens to match. -/
theorem memberLookup_spec :
    (∀ (pre post : List (String × String)) (T p key : String),
        (∀ e ∈ pre, entryMatches e.1 key = false) →
        T.data.contains ',' = true →
        (splitSubkeys T).contains key = true →
        getCgpathValue (pre ++ (T, p) :: post) key = some p) ∧
    (∀ T : String, T.data.contains ',' = true → entryMatches T T = false) := by
  constructor
  · intro pre post T p key hpre hT hkey
    have hT' : ',' ∈ T.data := by simpa using hT
    have hkey' : key ∈ splitSubkeys T := by simpa using hkey
    induction pre with
    | nil => simp [getCgpathValue, hT', hkey']
    | cons e rest ih =>
      have he := hpre e (by simp)
      have hrest : ∀ e ∈ rest, entryMatches e.1 key = false :=
        fun x hx => hpre x (by simp [hx])
      rw [List.cons_append]
      obtain ⟨ec, ep⟩ := e
      by_cases h1 : ',' ∈ ec.data
      · have h2 : key ∉ splitSubkeys ec := by
          rw [entryMatches, if_pos (by simpa using h1)] at he
          simpa using he
        rw [show getCgpathValue ((ec, ep) :: (rest ++ (T, p) :: post)) key =
              getCgpathValue (rest ++ (T, p) :: post) key from by
            simp [getCgpathValue, h1, h2]]
        exact ih hrest
      · have h2 : ¬ (ec = key) := by
          rw [entryMatches, if_neg (by simpa using h1)] at he
          simpa using he
        rw [show getCgpathValue ((ec, ep) :: (rest ++ (T, p) :: post)) key =
              getCgpathValue (rest ++ (T, p) :: post) key from by
            simp [getCgpathValue, h1, h2]]
        exact ih hrest
  · intro T hT
    rw [entryMatches, if_pos hT]
    cases hb : (splitSubkeys T).contains T with
    | false => rfl
    | true =>
      exfalso
      have hmem : T ∈ splitSubkeys T := by
        obtain ⟨x, hx, hbeq⟩ := List.contains_iff_exists_mem_beq.mp hb
        exact (show T = x from by simpa using hbeq) ▸ hx
      obtain ⟨tok, htok, heq⟩ := List.mem_map.mp hmem
      have hno : ',' ∉ tok := strtokSplit_no_delim ',' T.data tok htok
      have hTmem : ',' ∈ T.data := by simpa using hT
      rw [← heq] at hTmem
      exact hno hTmem

/-- Claim C3 witness: the amended theorem applied to the concrete entry
`("cpu,cpuacct", "/a")` and member token `"cpu"`. -/
theorem memberLookup_spec_witness :
    ("cpu,cpuacct" : String).data.contains ',' = true ∧
    (splitSubkeys "cpu,cpuacct").contains "cpu" = true ∧
    getCgpathValue ([] ++ ("cpu,cpuacct", "/a") :: []) "cpu" = some "/a" ∧
    entryMatches "cpu,cpuacct" "cpu,cpuacct" = false :=
  ⟨by decide, by decide,
    memberLookup_spec.1 [] [] "cpu,cpuacct" "/a" "cpu" (by simp) (by decide) (by decide),
    memberLookup_spec.2 "cpu,cpuacct" (by decide)⟩

/-! ### Member enumeration (claim C8) -/

theorem uniqAdjGo_subset (prev : Int) : ∀ t : List Int, uniqAdjGo prev t ⊆ t := by
  intro t
  induction t generalizing prev with
  | nil => simp [uniqAdjGo]
  | cons b t ih =>
    by_cases h : b = prev
    · simp only [uniqAdjGo, h, if_pos rfl]
      exact (ih prev).trans (List.subset_cons_self prev t)
    · simp only [uniqAdjGo, if_neg h]
      exact List.cons_subset_cons b (ih b)

theorem uniqAdjGo_pairwise :
    ∀ (t : List Int) (prev : Int), (prev :: t).Pairwise (· ≤ ·) →
      (prev :: uniqAdjGo prev t).Pairwise (· < ·) := by
  intro t
  induction t with
  | nil =>
    intro prev _
    simp [uniqAdjGo]
  | cons b t ih =>
    intro prev h
    rw [List.pairwise_cons] at h
    obtain ⟨hle, hbt⟩ := h
    by_cases hb : b = prev
    · subst hb
      rw [show uniqAdjGo b (b :: t) = uniqAdjGo b t from by simp [uniqAdjGo]]
      apply ih b
      exact hbt
    · rw [show uniqAdjGo prev (b :: t) = b :: uniqAdjGo b t from by
        simp [uniqAdjGo, hb]]
      have htail := ih b hbt
      rw [List.pairwise_cons]
      refine ⟨?_, htail⟩
      intro y hy
      have hpb : prev < b :=
        lt_of_le_of_ne (hle b (by simp)) (fun he => hb he.symm)
      rcases List.mem_cons.mp hy with h1 | h1
      · exact h1 ▸ hpb
      · have hyt : y ∈ t := uniqAdjGo_subset b t h1
        have hby : b ≤ y := (List.pairwise_cons.mp hbt).1 y hyt
        exact lt_of_lt_of_le hpb hby

theorem uniqAdjGo_mem :
    ∀ (t : List Int) (prev x : Int),
      (x ∈ prev :: uniqAdjGo prev t ↔ x ∈ prev :: t) := by
  intro t
  induction t with
  | nil => intro prev x; simp [uniqAdjGo]
  | cons b t ih =>
    intro prev x
    by_cases hb : b = prev
    · subst hb
      rw [show uniqAdjGo b (b :: t) = uniqAdjGo b t from by simp [uniqAdjGo]]
      rw [ih b x]
      simp
    · rw [show uniqAdjGo prev (b :: t) = b :: uniqAdjGo b t from by
        simp [uniqAdjGo, hb]]
      constructor
      · intro hx
        rcases List.mem_cons.mp hx with h1 | h1
        · simp [h1]
        · have := (ih b x).mp h1
          rcases List.mem_cons.mp this with h2 | h2
          · simp [h2]
          · simp [h2]
      · intro hx
        rcases List.mem_cons.mp hx with h1 | h1
        · simp [h1]
        · have : x ∈ b :: uniqAdjGo b t := (ih b x).mpr h1
          simp [List.mem_cons.mp this]

theorem uniqAdj_spec (l : List Int) (h : l.Pairwise (· ≤ ·)) :
    (uniqAdj l).Pairwise (· < ·) ∧ (∀ x, x ∈ uniqAdj l ↔ x ∈ l) := by
  match l with
  | [] => exact ⟨by simp [uniqAdj], by simp [uniqAdj]⟩
  | a :: t =>
    rw [show uniqAdj (a :: t) = a :: uniqAdjGo a t from rfl]
    exact ⟨uniqAdjGo_pairwise t a h, fun x => uniqAdjGo_mem t a x⟩

/-- Claim C8 (amended): for every membership file with at least one
line, all of whose lines parse as integers, `cgmembers` returns the
strictly increasing sequence of the distinct pids present; it fails
when any line is non-numeric — and also on the zero-line (empty) file,
which the claim as stated does not except. -/
theorem cgmembers_spec :
    (∀ (content : String) (pids : List Int),
        (readNlsv content).mapM scanint8 = some pids →
        readNlsv content ≠ [] →
        ∃ r, cgmembers content = some r ∧ r.Pairwise (· < ·) ∧
          (∀ x : Int, x ∈ r ↔ x ∈ pids)) ∧
    (∀ content : String, (readNlsv content).mapM scanint8 = none →
        cgmembers content = none) := by
  constructor
  · intro content pids hm hne
    unfold cgmembers
    rw [if_neg (by simpa [List.isEmpty_iff] using hne), hm]
    have hperm : (pids.mergeSort fun a b => decide (a ≤ b)).Perm pids :=
      List.mergeSort_perm pids _
    have hsorted : (pids.mergeSort fun a b => decide (a ≤ b)).Pairwise (· ≤ ·) := by
      have := @List.sorted_mergeSort Int (fun a b : Int => decide (a ≤ b))
        (fun a b c hab hbc => by
          simp only [decide_eq_true_eq] at hab hbc ⊢
          exact le_trans hab hbc)
        (fun a b => by
          simp only [Bool.or_eq_true, decide_eq_true_eq]
          exact le_total a b)
        pids
      exact this.imp (fun h => by simpa using h)
    obtain ⟨hp, hmem⟩ := uniqAdj_spec _ hsorted
    refine ⟨_, rfl, hp, fun x => ?_⟩
    rw [hmem x]
    exact ⟨fun hx => hperm.subset hx, fun hx => hperm.symm.subset hx⟩
  · intro content hm
    unfold cgmembers
    by_cases h : readNlsv content = []
    · rw [if_pos (by simpa [List.isEmpty_iff] using h)]
    · rw [if_neg (by simpa [List.isEmpty_iff] using h), hm]
      rfl

/-- Claim C8 (counterexample): the empty membership file — zero lines,
so vacuously every line parses — is rejected with an error by
`cgmembers` rather than yielding the empty pid set. -/
theorem cgmembers_empty_counterexample :
    cgmembers "" = none ∧ (readNlsv "").mapM scanint8 = some [] := by
  refine ⟨rfl, rfl⟩

/-- Claim C8 witness: the spec's own example, the unsorted duplicated
input `[30, 10, 10, 20]`. -/
theorem cgmembers_spec_witness :
    (readNlsv "30\n10\n10\n20\n").mapM scanint8 = some [30, 10, 10, 20] ∧
    readNlsv "30\n10\n10\n20\n" ≠ [] ∧
    (∃ r, cgmembers "30\n10\n10\n20\n" = some r ∧ r.Pairwise (· < ·) ∧
      (∀ x : Int, x ∈ r ↔ x ∈ [30, 10, 10, 20])) :=
  ⟨by decide, by decide,
    cgmembers_spec.1 "30\n10\n10\n20\n" [30, 10, 10, 20] (by decide) (by decide)⟩

/-! ### Synthetic default entry (claim C9) -/

theorem foldl_lastMemory :
    ∀ (l : List (String × String)) (init : Option String),
      l.foldl (fun d e => if strcaseEq e.1 "memory" then some e.2 else d) init =
        (match (l.filter fun e => strcaseEq e.1 "memory").getLast? with
         | some e => some e.2
         | none => init) := by
  intro l
  induction l with
  | nil => intro init; rfl
  | cons e l ih =>
    intro init
    rw [List.foldl_cons, ih]
    by_cases hP : strcaseEq e.1 "memory"
    · rw [if_pos hP]
      rw [show (e :: l).filter (fun e => strcaseEq e.1 "memory") =
            e :: l.filter (fun e => strcaseEq e.1 "memory") from by
          simp [List.filter_cons, hP]]
      cases hfl : l.filter (fun e => strcaseEq e.1 "memory") with
      | nil => simp
      | cons y ys =>
        rw [show (e :: y :: ys).getLast? = (y :: ys).getLast? from List.getLast?_cons_cons]
        rw [List.getLast?_eq_getLast (y :: ys) (by simp)]
    · rw [if_neg hP]
      rw [show (e :: l).filter (fun e => strcaseEq e.1 "memory") =
            l.filter (fun e => strcaseEq e.1 "memory") from by
          simp [List.filter_cons, hP]]

theorem setCgpathV1Go_spec (fs : String → Bool) (ctz : Bool) (root : String) :
    ∀ (lines : List String) (acc : List (String × String)) (defpath : Option String)
      (t : List (String × String)),
      setCgpathV1Go fs ctz root lines acc defpath = some t →
      ∃ entries, t = acc ++ entries ++
        [createDefaultCgpath (entries.foldl
          (fun d e => if strcaseEq e.1 "memory" then some e.2 else d) defpath)] := by
  intro lines
  induction lines with
  | nil =>
    intro acc defpath t h
    refine ⟨[], ?_⟩
    simp only [setCgpathV1Go, Option.some_inj] at h
    simp [← h]
  | cons line rest ih =>
    intro acc defpath t h
    rw [setCgpathV1Go] at h
    match hp : parseCgroupV1Line line with
    | none => rw [hp] at h; exact absurd h (by simp)
    | some (controller, r) =>
      rw [hp] at h
      obtain ⟨entries', ht⟩ := ih _ _ _ h
      refine ⟨(controller, checkAndFixControllerPath fs ctz root controller r) :: entries', ?_⟩
      rw [ht]
      simp [List.foldl_cons]

/-- Claim C9 (amended): after every resolution pass the topology table
ends with one synthetic default entry whose single lookup key is
`"cgroup"` (the older all-in-one variant keys it `"default"` instead —
neither variant aliases both keys): in the v1 branch its path is the
resolved path of the last line whose controller equals `memory`
case-insensitively, or the sentinel `"Default_Controller_Not_Found"` —
not `"Controller_Not_Found"` — when no memory line exists; in the v2
branch its path is the shared base directory used by every entry. -/
theorem defaultEntry_spec :
    (∀ d, (createDefaultCgpath d).1 = "cgroup") ∧
    (∀ s, (createDefaultCgpathOld s).1 = "default") ∧
    createDefaultCgpath none = ("cgroup", "Default_Controller_Not_Found") ∧
    (∀ (fs : String → Bool) (ctz : Bool) (root : String) (lines : List String)
        (t : List (String × String)),
        setCgpathV1 fs ctz root lines = some t →
        t.getLast? = some (createDefaultCgpath
          (((t.dropLast.filter fun e => strcaseEq e.1 "memory").getLast?).map Prod.snd))) ∧
    (∀ (ctz : Bool) (root sc cc : String) (t : List (String × String)),
        setCgpathV2 ctz root sc cc = some t →
        ∃ dp, t.getLast? = some ("cgroup", dp) ∧ ∀ e ∈ t, e.2 = dp) := by
  refine ⟨fun d => rfl, fun s => rfl, rfl, ?_, ?_⟩
  · intro fs ctz root lines t h
    unfold setCgpathV1 at h
    by_cases hl : lines.isEmpty
    · rw [if_pos hl] at h
      exact absurd h (by simp)
    · rw [if_neg hl] at h
      obtain ⟨entries, ht⟩ := setCgpathV1Go_spec fs ctz root lines [] none t h
      rw [List.nil_append] at ht
      subst ht
      rw [List.getLast?_concat, List.dropLast_concat]
      rw [foldl_lastMemory entries none]
      cases (entries.filter (fun e => strcaseEq e.1 "memory")).getLast? <;> rfl
  · intro ctz root sc cc t h
    unfold setCgpathV2 at h
    rcases Option.bind_eq_some.mp h with ⟨rawstr, hro, h2⟩
    rcases Option.map_eq_some'.mp h2 with ⟨controllers, hpv, ht⟩
    refine ⟨if ¬ ctz then root ++ "/" ++ String.mk (rawstr.data.drop 4) else root, ?_, ?_⟩
    · rw [← ht]
      exact List.getLast?_concat _
    · intro e he
      rw [← ht] at he
      rcases List.mem_append.mp he with h1 | h1
      · obtain ⟨c, _, hc⟩ := List.mem_map.mp h1
        rw [← hc]
      · rw [List.mem_singleton.mp h1]
        rfl

/-- Claim C9 (counterexample): a concrete v1 resolution pass (single
line `2:cpu:/`, nothing on disk): the synthetic entry answers only the
key `"cgroup"`, lookup of `"default"` raises the hard lookup error, and
the recorded sentinel is `"Default_Controller_Not_Found"`, not the
claimed `"Controller_Not_Found"`. -/
theorem defaultEntry_counterexample :
    setCgpathV1 (fun _ => false) false "/sys/fs/cgroup" ["2:cpu:/"] =
      some [("cpu", "Controller_Not_Found"), ("cgroup", "Default_Controller_Not_Found")] ∧
    getCgpathValue [("cpu", "Controller_Not_Found"),
      ("cgroup", "Default_Controller_Not_Found")] "default" = none ∧
    getCgpathValue [("cpu", "Controller_Not_Found"),
      ("cgroup", "Default_Controller_Not_Found")] "cgroup" =
      some "Default_Controller_Not_Found" ∧
    ("Default_Controller_Not_Found" : String) ≠ "Controller_Not_Found" := by
  refine ⟨by decide, by decide, by decide, by decide⟩

/-- Claim C9 witness: the amended theorem applied to the concrete v1
resolution pass of the counterexample. -/
theorem defaultEntry_spec_witness :
    setCgpathV1 (fun _ => false) false "/sys/fs/cgroup" ["2:cpu:/"] =
      some [("cpu", "Controller_Not_Found"), ("cgroup", "Default_Controller_Not_Found")] ∧
    ([("cpu", "Controller_Not_Found"),
      ("cgroup", "Default_Controller_Not_Found")] : List (String × String)).getLast? =
      some (createDefaultCgpath
        ((([("cpu", "Controller_Not_Found"),
            ("cgroup", "Default_Controller_Not_Found")].dropLast.filter
              fun e => strcaseEq e.1 "memory").getLast?).map Prod.snd)) :=
  ⟨by decide, defaultEntry_spec.2.2.2.1 (fun _ => false) false "/sys/fs/cgroup"
    ["2:cpu:/"] _ (by decide)⟩

/-! ### Heap's algorithm groundwork (claim C1): generic `swapL` facts -/

theorem length_swapL (l : List Nat) (i j : Nat) : (swapL l i j).length = l.length := by
  unfold swapL
  split <;> simp

theorem getD_swapL (l : List Nat) (i j : Nat) (hi : i < l.length) (hj : j < l.length)
    (p : Nat) :
    (swapL l i j).getD p 0 =
      if p = j then l.getD i 0 else if p = i then l.getD j 0 else l.getD p 0 := by
  unfold swapL
  rw [dif_pos ⟨hi, hj⟩]
  simp only [List.getD_eq_getElem?_getD, List.getElem?_set, List.length_set,
    List.get_eq_getElem]
  by_cases hpj : p = j
  · subst hpj
    simp [hj, List.getElem?_eq_getElem hi]
  · by_cases hpi : p = i
    · subst hpi
      simp [Ne.symm hpj, hpj, hi, List.getElem?_eq_getElem hj]
    · simp [Ne.symm hpj, Ne.symm hpi, hpj, hpi]

theorem drop_swapL (l : List Nat) (i j n : Nat) (hi : i < n) (hj : j < n) :
    (swapL l i j).drop n = l.drop n := by
  unfold swapL
  split
  · rw [List.drop_set, if_pos hj, List.drop_set, if_pos hi]
  · rfl

theorem get_cons_set_perm :
    ∀ (t : List Nat) (j : Nat) (h : j < t.length) (c : Nat),
      (t.get ⟨j, h⟩ :: t.set j c).Perm (c :: t) := by
  intro t
  induction t with
  | nil => intro j h c; simp at h
  | cons a t ih =>
    intro j h c
    match j with
    | 0 => exact List.Perm.swap c a t
    | j+1 =>
      have h' : j < t.length := Nat.lt_of_succ_lt_succ h
      show (t.get ⟨j, h'⟩ :: (a :: t.set j c)).Perm (c :: a :: t)
      exact (List.Perm.swap a (t.get ⟨j, h'⟩) (t.set j c)).trans
        (((ih j h' c).cons a).trans (List.Perm.swap c a t))

theorem set_set_perm :
    ∀ (l : List Nat) (i j : Nat) (hi : i < l.length) (hj : j < l.length),
      ((l.set i (l.get ⟨j, hj⟩)).set j (l.get ⟨i, hi⟩)).Perm l := by
  intro l
  induction l with
  | nil => intro i j hi hj; simp at hi
  | cons a t ih =>
    intro i j hi hj
    match i, j with
    | 0, 0 => exact List.Perm.refl _
    | 0, j+1 =>
      have h' : j < t.length := Nat.lt_of_succ_lt_succ hj
      show (t.get ⟨j, h'⟩ :: t.set j a).Perm (a :: t)
      exact get_cons_set_perm t j h' a
    | i+1, 0 =>
      have h' : i < t.length := Nat.lt_of_succ_lt_succ hi
      show (t.get ⟨i, h'⟩ :: t.set i a).Perm (a :: t)
      exact get_cons_set_perm t i h' a
    | i+1, j+1 =>
      have hi' : i < t.length := Nat.lt_of_succ_lt_succ hi
      have hj' : j < t.length := Nat.lt_of_succ_lt_succ hj
      show (a :: (t.set i (t.get ⟨j, hj'⟩)).set j (t.get ⟨i, hi'⟩)).Perm (a :: t)
      exact (ih i j hi' hj').cons a

theorem swapL_perm (l : List Nat) (i j : Nat) : (swapL l i j).Perm l := by
  unfold swapL
  split
  · rename_i h
    exact set_set_perm l i j h.1 h.2
  · exact List.Perm.refl l

theorem eq_of_getD {l1 l2 : List Nat} (hlen : l1.length = l2.length)
    (h : ∀ p, l1.getD p 0 = l2.getD p 0) : l1 = l2 := by
  apply List.ext_getElem hlen
  intro i h1 h2
  have hh := h i
  simp only [List.getD_eq_getElem?_getD, List.getElem?_eq_getElem h1,
    List.getElem?_eq_getElem h2, Option.getD_some] at hh
  exact hh

theorem getD_inj_of_take_nodup {l : List Nat} {k a b : Nat} (hkl : k ≤ l.length)
    (hnd : (l.take k).Nodup) (ha : a < k) (hb : b < k)
    (h : l.getD a 0 = l.getD b 0) : a = b := by
  have hal : a < l.length := lt_of_lt_of_le ha hkl
  have hbl : b < l.length := lt_of_lt_of_le hb hkl
  have hgl : l[a] = l[b] := by
    simpa only [List.getD_eq_getElem?_getD, List.getElem?_eq_getElem hal,
      List.getElem?_eq_getElem hbl, Option.getD_some] using h
  have hta : a < (l.take k).length := by simp [List.length_take]; omega
  have htb : b < (l.take k).length := by simp [List.length_take]; omega
  have htake : (l.take k)[a] = (l.take k)[b] := by
    have h1 : (l.take k)[a]? = (l.take k)[b]? := by
      rw [List.getElem?_take_of_lt ha, List.getElem?_take_of_lt hb,
        List.getElem?_eq_getElem hal, List.getElem?_eq_getElem hbl, hgl]
    simpa only [List.getElem?_eq_getElem hta, List.getElem?_eq_getElem htb,
      Option.some_inj] using h1
  exact (@List.Nodup.getElem_inj_iff _ _ hnd a hta b htb).mp htake

theorem getD_congr (l : List Nat) {a b : Nat} (h : a = b) :
    l.getD a 0 = l.getD b 0 := by
  rw [h]

/-! ### Heap's algorithm (C1): every emission is a permutation fixing the
tail, and a complete level-`k` run emits `k!` arrays -/

theorem heapLoop_basic (lv2 : Nat)
    (hsub : ∀ a : List Nat,
      ((heapPermute (lv2+1) a).1.Perm a ∧
        (heapPermute (lv2+1) a).1.drop (lv2+1) = a.drop (lv2+1)) ∧
      (∀ x ∈ (heapPermute (lv2+1) a).2, x.Perm a ∧ x.drop (lv2+1) = a.drop (lv2+1)) ∧
      (heapPermute (lv2+1) a).2.length = (lv2+1).factorial) :
    ∀ (is : List Nat), (∀ i ∈ is, i < lv2 + 2) →
      ∀ (arr : List Nat) (acc : List (List Nat)),
      ((heapLoop lv2 is arr acc).1.Perm arr ∧
        (heapLoop lv2 is arr acc).1.drop (lv2+2) = arr.drop (lv2+2)) ∧
      (∀ x ∈ (heapLoop lv2 is arr acc).2,
        x ∈ acc ∨ (x.Perm arr ∧ x.drop (lv2+2) = arr.drop (lv2+2))) ∧
      (heapLoop lv2 is arr acc).2.length = acc.length + is.length * (lv2+1).factorial := by
  intro is
  induction is with
  | nil =>
    intro _ arr acc
    rw [heapLoop]
    exact ⟨⟨List.Perm.refl _, rfl⟩, fun x hx => Or.inl hx, by simp⟩
  | cons i rest ih =>
    intro hbd arr acc
    have hbi : i < lv2 + 2 := hbd i (by simp)
    set a1 := if (lv2 + 2) % 2 = 0 then swapL arr i (lv2+1) else swapL arr 0 (lv2+1)
      with ha1
    have ha1p : a1.Perm arr := by
      rw [ha1]; split <;> exact swapL_perm _ _ _
    have ha1d : a1.drop (lv2+2) = arr.drop (lv2+2) := by
      rw [ha1]; split
      · exact drop_swapL _ _ _ _ hbi (by omega)
      · exact drop_swapL _ _ _ _ (by omega) (by omega)
    have heq : heapLoop lv2 (i :: rest) arr acc =
        heapLoop lv2 rest (heapPermute (lv2+1) a1).1
          (acc ++ (heapPermute (lv2+1) a1).2) := by
      rw [heapLoop]
    obtain ⟨⟨hp1, hd1⟩, hmem1, hlen1⟩ := hsub a1
    have hd1' : (heapPermute (lv2+1) a1).1.drop (lv2+2) = arr.drop (lv2+2) := by
      have h2 := congrArg (List.drop 1) hd1
      rw [List.drop_drop, List.drop_drop] at h2
      exact h2.trans ha1d
    have hrec := ih (fun j hj => hbd j (List.mem_cons_of_mem _ hj))
      (heapPermute (lv2+1) a1).1 (acc ++ (heapPermute (lv2+1) a1).2)
    rw [heq]
    obtain ⟨⟨hfp, hfd⟩, hmem, hlen⟩ := hrec
    refine ⟨⟨hfp.trans (hp1.trans ha1p), hfd.trans hd1'⟩, ?_, ?_⟩
    · intro x hx
      rcases hmem x hx with hin | ⟨hxp, hxd⟩
      · rcases List.mem_append.mp hin with hacc | hx2
        · exact Or.inl hacc
        · obtain ⟨hxp, hxd⟩ := hmem1 x hx2
          refine Or.inr ⟨hxp.trans ha1p, ?_⟩
          have h2 := congrArg (List.drop 1) hxd
          rw [List.drop_drop, List.drop_drop] at h2
          exact h2.trans ha1d
      · exact Or.inr ⟨hxp.trans (hp1.trans ha1p), hxd.trans hd1'⟩
    · rw [hlen, List.length_append, hlen1, List.length_cons, Nat.succ_mul]
      ring

theorem heapPermute_basic (k : Nat) : ∀ (l : List Nat),
    ((heapPermute k l).1.Perm l ∧ (heapPermute k l).1.drop k = l.drop k) ∧
    (∀ x ∈ (heapPermute k l).2, x.Perm l ∧ x.drop k = l.drop k) ∧
    (1 ≤ k → (heapPermute k l).2.length = k.factorial) := by
  induction k with
  | zero =>
    intro l
    rw [heapPermute]
    exact ⟨⟨List.Perm.refl _, rfl⟩, by simp, fun h => absurd h (by omega)⟩
  | succ n ihn =>
    cases n with
    | zero =>
      intro l
      rw [heapPermute]
      refine ⟨⟨List.Perm.refl _, rfl⟩, ?_, fun _ => by simp [Nat.factorial]⟩
      intro x hx
      simp only [List.mem_singleton] at hx
      subst hx
      exact ⟨List.Perm.refl _, rfl⟩
    | succ m =>
      intro l
      have hsub : ∀ a : List Nat,
          ((heapPermute (m+1) a).1.Perm a ∧
            (heapPermute (m+1) a).1.drop (m+1) = a.drop (m+1)) ∧
          (∀ x ∈ (heapPermute (m+1) a).2, x.Perm a ∧ x.drop (m+1) = a.drop (m+1)) ∧
          (heapPermute (m+1) a).2.length = (m+1).factorial :=
        fun a => ⟨(ihn a).1, (ihn a).2.1, (ihn a).2.2 (by omega)⟩
      have heq : heapPermute (m+2) l =
          heapLoop m (List.range (m+1)) (heapPermute (m+1) l).1
            (heapPermute (m+1) l).2 := by
        rw [heapPermute]
      have hloop := heapLoop_basic m hsub (List.range (m+1))
        (fun j hj => by have := List.mem_range.mp hj; omega)
        (heapPermute (m+1) l).1 (heapPermute (m+1) l).2
      rw [heq]
      obtain ⟨⟨hfp, hfd⟩, hmem, hlen⟩ := hloop
      obtain ⟨⟨hp0, hd0⟩, hmem0, hlen0⟩ := ihn l
      have hd0' : (heapPermute (m+1) l).1.drop (m+2) = l.drop (m+2) := by
        have h2 := congrArg (List.drop 1) hd0
        rw [List.drop_drop, List.drop_drop] at h2
        exact h2
      refine ⟨⟨hfp.trans hp0, hfd.trans hd0'⟩, ?_, ?_⟩
      · intro x hx
        rcases hmem x hx with hin | ⟨hxp, hxd⟩
        · obtain ⟨hxp, hxd⟩ := hmem0 x hin
          refine ⟨hxp, ?_⟩
          have h2 := congrArg (List.drop 1) hxd
          rw [List.drop_drop, List.drop_drop] at h2
          exact h2
        · exact ⟨hxp.trans hp0, hxd.trans hd0'⟩
      · intro _
        rw [hlen, hlen0 (by omega), List.length_range,
          show (m+2).factorial = (m+2) * (m+1).factorial from rfl]
        ring

/-! ### Heap's algorithm (C1): lengths and the pointwise form of the
even-level final state -/

theorem heapFinal_length (k : Nat) (l : List Nat) (h : k ≤ l.length) :
    (heapFinal k l).length = l.length := by
  unfold heapFinal
  split
  · rfl
  · split
    · exact length_swapL _ _ _
    · split
      · exact length_swapL _ _ _
      · simp only [List.length_append, List.length_map, List.length_range,
          List.length_drop]
        omega

theorem blockStarts_length (k : Nat) (l : List Nat) (hk : k ≤ l.length)
    (hk1 : 1 ≤ k) : ∀ t, (blockStarts k l t).length = l.length := by
  intro t
  induction t with
  | zero => rfl
  | succ t ih =>
    show (stepArr k t (heapFinal (k-1) (blockStarts k l t))).length = l.length
    have hf : (heapFinal (k-1) (blockStarts k l t)).length = l.length := by
      rw [heapFinal_length _ _ (by rw [ih]; omega), ih]
    unfold stepArr
    split <;> rw [length_swapL, hf]

theorem getD_heapFinal_even (k : Nat) (l : List Nat) (hk : 4 ≤ k) (he : k % 2 = 0)
    (hkl : k ≤ l.length) (p : Nat) :
    (heapFinal k l).getD p 0 =
      if p < k then l.getD (evenSrc k p) 0 else l.getD p 0 := by
  unfold heapFinal
  rw [if_neg (by omega), if_neg (by omega), if_neg (by omega)]
  by_cases hp : p < k
  · rw [if_pos hp, List.getD_eq_getElem?_getD,
      List.getElem?_append_left (by simp [hp]),
      List.getElem?_map, List.getElem?_range hp]
    rfl
  · rw [if_neg hp, List.getD_eq_getElem?_getD,
      List.getElem?_append_right (by simp; omega),
      List.length_map, List.length_range, List.getElem?_drop,
      show k + (p - k) = p from by omega, ← List.getD_eq_getElem?_getD]

/-! ### Heap's algorithm (C1): closed form of the sub-run start states at
even levels -/

set_option maxHeartbeats 1600000 in
theorem uEvenIdx_step (k j p : Nat) (hk : 4 ≤ k) (he : k % 2 = 0)
    (hj : j + 1 ≤ k - 1) :
    uEvenIdx k j (eSrcStep k j p) = uEvenIdx k (j+1) p := by
  obtain ⟨m, rfl⟩ : ∃ m, k = m + 4 := ⟨k - 4, by omega⟩
  unfold eSrcStep
  simp only [show m+4-1 = m+3 from rfl, show m+4-2 = m+2 from rfl,
    show m+4-3 = m+1 from rfl]
  split_ifs <;>
    (unfold uEvenIdx;
     simp only [show m+4-1 = m+3 from rfl, show m+4-2 = m+2 from rfl,
       show m+4-3 = m+1 from rfl];
     split_ifs <;> first | rfl | contradiction | omega)

theorem getD_step_even (k j : Nat) (u : List Nat) (hk : 4 ≤ k)
    (hkl : k ≤ u.length) (hjk : j ≤ k - 1) (p : Nat) :
    (swapL (swapL u 0 (k-2)) j (k-1)).getD p 0 = u.getD (eSrcStep k j p) 0 := by
  rw [getD_swapL _ _ _ (by rw [length_swapL]; omega) (by rw [length_swapL]; omega) p]
  have hin : ∀ q, (swapL u 0 (k-2)).getD q 0 =
      if q = k-2 then u.getD 0 0 else if q = 0 then u.getD (k-2) 0
      else u.getD q 0 :=
    fun q => getD_swapL _ _ _ (by omega) (by omega) q
  rw [hin j, hin (k-1), hin p]
  unfold eSrcStep
  split_ifs <;> first | rfl | contradiction | exact getD_congr u (by omega)

theorem blockStarts_even_getD (k : Nat) (l : List Nat) (hk : 4 ≤ k) (he : k % 2 = 0)
    (hkl : k ≤ l.length) :
    ∀ j, j ≤ k - 1 → ∀ p, (blockStarts k l j).getD p 0 = l.getD (uEvenIdx k j p) 0 := by
  intro j
  induction j with
  | zero =>
    intro _ p
    show l.getD p 0 = l.getD (uEvenIdx k 0 p) 0
    unfold uEvenIdx
    split_ifs <;> first | rfl | contradiction | omega
  | succ j ih =>
    intro hj1 p
    have ihj := ih (by omega)
    have hlen : (blockStarts k l j).length = l.length :=
      blockStarts_length k l hkl (by omega) j
    rw [blockStarts]
    have hstep : stepArr k j (heapFinal (k-1) (blockStarts k l j)) =
        swapL (swapL (blockStarts k l j) 0 (k-2)) j (k-1) := by
      unfold stepArr heapFinal
      rw [if_pos he, if_neg (by omega), if_pos (by omega),
        show k - 1 - 1 = k - 2 from by omega]
    rw [hstep, getD_step_even k j _ hk (by omega) (by omega) p, ihj]
    exact getD_congr l (uEvenIdx_step k j p hk he hj1)

/-! ### Heap's algorithm (C1): closed form of the sub-run start states at
odd levels (iterates of the step permutation `sMap`) -/

set_option maxHeartbeats 3200000 in
theorem getD_step_odd (k : Nat) (u : List Nat) (hk : 5 ≤ k) (ho : k % 2 = 1)
    (hkl : k ≤ u.length) (q : Nat) :
    (swapL (heapFinal (k-1) u) 0 (k-1)).getD q 0 = u.getD (sMap k q) 0 := by
  have hflen : (heapFinal (k-1) u).length = u.length := heapFinal_length _ _ (by omega)
  have hF : ∀ x, (heapFinal (k-1) u).getD x 0 =
      if x < k-1 then u.getD (evenSrc (k-1) x) 0 else u.getD x 0 :=
    fun x => getD_heapFinal_even (k-1) u (by omega) (by omega) (by omega) x
  rw [getD_swapL _ _ _ (by rw [hflen]; omega) (by rw [hflen]; omega) q,
    hF 0, hF (k-1), hF q]
  unfold evenSrc sMap
  split_ifs <;> first | rfl | contradiction | exact getD_congr u (by omega)

theorem blockStarts_odd_getD (k : Nat) (l : List Nat) (hk : 5 ≤ k) (ho : k % 2 = 1)
    (hkl : k ≤ l.length) :
    ∀ i q, (blockStarts k l i).getD q 0 = l.getD (sIter k i q) 0 := by
  intro i
  induction i with
  | zero => intro q; rfl
  | succ i ih =>
    intro q
    have hlen : (blockStarts k l i).length = l.length :=
      blockStarts_length k l hkl (by omega) i
    rw [blockStarts]
    have hstep : stepArr k i (heapFinal (k-1) (blockStarts k l i)) =
        swapL (heapFinal (k-1) (blockStarts k l i)) 0 (k-1) := by
      unfold stepArr
      rw [if_neg (by omega)]
    rw [hstep, getD_step_odd k _ hk ho (by omega) q, ih (sMap k q)]
    rfl

theorem sMap_ge (k q : Nat) (h : q ≥ k) : sMap k q = q := by
  unfold sMap
  rw [if_pos h]

set_option maxHeartbeats 800000 in
theorem sMap_lt (k q : Nat) (hk : 5 ≤ k) (h : q < k) : sMap k q < k := by
  unfold sMap
  split_ifs <;> omega

theorem sIter_lt (k : Nat) (hk : 5 ≤ k) : ∀ i q, q < k → sIter k i q < k := by
  intro i
  induction i with
  | zero => intro q h; exact h
  | succ i ih =>
    intro q h
    show sIter k i (sMap k q) < k
    exact ih (sMap k q) (sMap_lt k q hk h)

theorem sIter_add (k a b : Nat) : ∀ q, sIter k (a+b) q = sIter k a (sIter k b q) := by
  induction b with
  | zero => intro q; rfl
  | succ b ih =>
    intro q
    show sIter k (a+b) (sMap k q) = sIter k a (sIter k b (sMap k q))
    exact ih (sMap k q)

theorem sIter_succ_out (k i q : Nat) : sIter k (i+1) q = sMap k (sIter k i q) := by
  have h := sIter_add k 1 i q
  rw [show (1:Nat) + i = i + 1 from by omega] at h
  rw [h]
  rfl

set_option maxHeartbeats 1600000 in
theorem sMap_wOdd (k : Nat) (hk : 5 ≤ k) :
    ∀ t, t ≤ k-2 → sMap k (wOdd k t) = wOdd k (t+1) := by
  intro t ht
  unfold sMap wOdd
  split_ifs <;> first | rfl | contradiction | omega

set_option maxHeartbeats 800000 in
theorem sMap_wOdd_wrap (k : Nat) (hk : 5 ≤ k) : sMap k (wOdd k (k-1)) = wOdd k 0 := by
  unfold sMap wOdd
  split_ifs <;> first | rfl | contradiction | omega

theorem sIter_wOdd (k : Nat) (hk : 5 ≤ k) :
    ∀ d t, t + d ≤ k-1 → sIter k d (wOdd k t) = wOdd k (t+d) := by
  intro d
  induction d with
  | zero => intro t _; rfl
  | succ d ih =>
    intro t ht
    show sIter k d (sMap k (wOdd k t)) = wOdd k (t+(d+1))
    rw [sMap_wOdd k hk t (by omega), show t+(d+1) = (t+1)+d from by omega]
    exact ih (t+1) (by omega)

set_option maxHeartbeats 800000 in
theorem wOdd_lt (k t : Nat) (hk : 5 ≤ k) : wOdd k t < k := by
  unfold wOdd
  split_ifs <;> omega

set_option maxHeartbeats 1600000 in
theorem wOdd_wOddInv (k q : Nat) (hk : 5 ≤ k) (h : q < k) :
    wOdd k (wOddInv k q) = q := by
  unfold wOdd wOddInv
  split_ifs <;> first | rfl | contradiction | omega

set_option maxHeartbeats 800000 in
theorem wOddInv_le (k q : Nat) (hk : 5 ≤ k) (h : q < k) : wOddInv k q ≤ k-1 := by
  unfold wOddInv
  split_ifs <;> omega

theorem sIter_k_self (k q : Nat) (hk : 5 ≤ k) (h : q < k) : sIter k k q = q := by
  obtain ⟨t, ht, rfl⟩ : ∃ t, t ≤ k-1 ∧ wOdd k t = q :=
    ⟨wOddInv k q, wOddInv_le k q hk h, wOdd_wOddInv k q hk h⟩
  have h1 : sIter k (k-1-t) (wOdd k t) = wOdd k (k-1) := by
    rw [sIter_wOdd k hk (k-1-t) t (by omega), show t + (k-1-t) = k-1 from by omega]
  have h2 : sIter k (t+1) (wOdd k (k-1)) = wOdd k t := by
    show sIter k t (sMap k (wOdd k (k-1))) = wOdd k t
    rw [sMap_wOdd_wrap k hk]
    have h3 := sIter_wOdd k hk t 0 (by omega)
    rwa [Nat.zero_add] at h3
  calc sIter k k (wOdd k t)
      = sIter k ((t+1)+(k-1-t)) (wOdd k t) := by
        rw [show (t+1)+(k-1-t) = k from by omega]
    _ = sIter k (t+1) (sIter k (k-1-t) (wOdd k t)) := sIter_add k (t+1) (k-1-t) _
    _ = sIter k (t+1) (wOdd k (k-1)) := by rw [h1]
    _ = wOdd k t := h2

set_option maxHeartbeats 1600000 in
theorem sInv_sMap (k q : Nat) (hk : 5 ≤ k) (h : q < k) : sInv k (sMap k q) = q := by
  unfold sMap
  split_ifs <;> (unfold sInv; split_ifs <;> first | rfl | contradiction | omega)

theorem sInv_ge (k q : Nat) (h : q ≥ k) : sInv k q = q := by
  unfold sInv
  rw [if_pos h]

theorem sIter_pred (k q : Nat) (hk : 5 ≤ k) (h : q < k) :
    sIter k (k-1) q = sInv k q := by
  have h1 : sMap k (sIter k (k-1) q) = q := by
    have h2 := sIter_succ_out k (k-1) q
    rw [show k-1+1 = k from by omega] at h2
    rw [← h2, sIter_k_self k q hk h]
  have h3 : sIter k (k-1) q < k := sIter_lt k hk (k-1) q h
  calc sIter k (k-1) q
      = sInv k (sMap k (sIter k (k-1) q)) := (sInv_sMap k _ hk h3).symm
    _ = sInv k q := by rw [h1]

theorem sIter_ge (k q : Nat) (h : q ≥ k) : ∀ i, sIter k i q = q := by
  intro i
  induction i with
  | zero => rfl
  | succ i ih =>
    show sIter k i (sMap k q) = q
    rw [sMap_ge k q h]
    exact ih

/-! ### Heap's algorithm (C1): the final state of a complete level-`k`
run is `heapFinal k` -/

theorem getD_swapL_fun (l : List Nat) (i j : Nat) (hi : i < l.length)
    (hj : j < l.length) : ∀ p,
    (swapL l i j).getD p 0 = l.getD (if p = j then i else if p = i then j else p) 0 := by
  intro p
  rw [getD_swapL l i j hi hj p]
  split_ifs <;> rfl

theorem pureFinal_two (l : List Nat) :
    heapFinal 1 (blockStarts 2 l 1) = heapFinal 2 l := by
  show heapFinal 1 (stepArr 2 0 (heapFinal 1 l)) = heapFinal 2 l
  simp [heapFinal, stepArr]

set_option maxHeartbeats 1600000 in
theorem pureFinal_three (l : List Nat) (hkl : 3 ≤ l.length) :
    heapFinal 2 (blockStarts 3 l 2) = heapFinal 3 l := by
  have h2 : ∀ x : List Nat, heapFinal 2 x = swapL x 0 1 := by
    intro x; simp [heapFinal]
  have h3 : ∀ (x : List Nat) (i : Nat), stepArr 3 i x = swapL x 0 2 := by
    intro x i; simp [stepArr]
  have hu2 : blockStarts 3 l 2 = swapL (swapL (swapL (swapL l 0 1) 0 2) 0 1) 0 2 := by
    show stepArr 3 1 (heapFinal 2 (blockStarts 3 l 1)) = _
    rw [show blockStarts 3 l 1 = stepArr 3 0 (heapFinal 2 l) from rfl, h2, h3, h2, h3]
  have hRHS : heapFinal 3 l = swapL l 0 2 := by simp [heapFinal]
  rw [hu2, h2, hRHS]
  have len1 : (swapL l 0 1).length = l.length := length_swapL _ _ _
  have len2 : (swapL (swapL l 0 1) 0 2).length = l.length := by
    rw [length_swapL, len1]
  have len3 : (swapL (swapL (swapL l 0 1) 0 2) 0 1).length = l.length := by
    rw [length_swapL, len2]
  have len4 : (swapL (swapL (swapL (swapL l 0 1) 0 2) 0 1) 0 2).length = l.length := by
    rw [length_swapL, len3]
  apply eq_of_getD
  · rw [length_swapL, len4, length_swapL]
  · intro p
    rw [getD_swapL_fun _ 0 1 (by rw [len4]; omega) (by rw [len4]; omega) p,
      getD_swapL_fun _ 0 2 (by rw [len3]; omega) (by rw [len3]; omega),
      getD_swapL_fun _ 0 1 (by rw [len2]; omega) (by rw [len2]; omega),
      getD_swapL_fun _ 0 2 (by rw [len1]; omega) (by rw [len1]; omega),
      getD_swapL_fun l 0 1 (by omega) (by omega),
      getD_swapL_fun l 0 2 (by omega) (by omega) p]
    exact getD_congr l (by split_ifs <;> first | omega | contradiction)

set_option maxHeartbeats 1600000 in
theorem pureFinal_even (k : Nat) (l : List Nat) (hk : 4 ≤ k) (he : k % 2 = 0)
    (hkl : k ≤ l.length) :
    heapFinal (k-1) (blockStarts k l (k-1)) = heapFinal k l := by
  have hulen : (blockStarts k l (k-1)).length = l.length :=
    blockStarts_length k l hkl (by omega) (k-1)
  have hLHS : heapFinal (k-1) (blockStarts k l (k-1)) =
      swapL (blockStarts k l (k-1)) 0 (k-2) := by
    unfold heapFinal
    rw [if_neg (by omega), if_pos (by omega), show k-1-1 = k-2 from by omega]
  apply eq_of_getD
  · rw [hLHS, length_swapL, hulen, heapFinal_length k l hkl]
  · intro p
    rw [hLHS, getD_swapL _ _ _ (by rw [hulen]; omega) (by rw [hulen]; omega) p,
      getD_heapFinal_even k l hk he hkl p]
    have hbs := blockStarts_even_getD k l hk he hkl (k-1) (le_refl _)
    rw [hbs 0, hbs (k-2), hbs p]
    obtain ⟨m, rfl⟩ : ∃ m, k = m + 4 := ⟨k - 4, by omega⟩
    unfold uEvenIdx evenSrc
    simp only [show m+4-1 = m+3 from rfl, show m+4-2 = m+2 from rfl,
      show m+4-3 = m+1 from rfl]
    split_ifs <;> first | rfl | contradiction | exact getD_congr l (by omega)

set_option maxHeartbeats 1600000 in
theorem pureFinal_odd (k : Nat) (l : List Nat) (hk : 5 ≤ k) (ho : k % 2 = 1)
    (hkl : k ≤ l.length) :
    heapFinal (k-1) (blockStarts k l (k-1)) = heapFinal k l := by
  have hulen : (blockStarts k l (k-1)).length = l.length :=
    blockStarts_length k l hkl (by omega) (k-1)
  have hRHS : heapFinal k l = swapL l 0 (k-1) := by
    unfold heapFinal
    rw [if_neg (by omega), if_pos ho]
  have hSI : ∀ y, sIter k (k-1) y = sInv k y := by
    intro y
    rcases Nat.lt_or_ge y k with h | h
    · exact sIter_pred k y hk h
    · rw [sIter_ge k y h, sInv_ge k y h]
  apply eq_of_getD
  · rw [heapFinal_length _ _ (by rw [hulen]; omega), hulen, hRHS, length_swapL]
  · intro p
    have hbs := blockStarts_odd_getD k l hk ho hkl (k-1)
    have hF := getD_heapFinal_even (k-1) (blockStarts k l (k-1)) (by omega)
      (by omega) (by rw [hulen]; omega) p
    rw [hF, hRHS, getD_swapL _ _ _ (by omega) (by omega) p,
      hbs (evenSrc (k-1) p), hbs p]
    simp only [hSI]
    unfold sInv evenSrc
    split_ifs <;> first | rfl | contradiction | exact getD_congr l (by omega)

theorem pureFinal (k : Nat) (l : List Nat) (hk : 2 ≤ k) (hkl : k ≤ l.length) :
    heapFinal (k-1) (blockStarts k l (k-1)) = heapFinal k l := by
  rcases Nat.lt_or_ge k 4 with h4 | h4
  · rcases Nat.lt_or_ge k 3 with h3 | h3
    · rw [show k = 2 from by omega]
      exact pureFinal_two l
    · rw [show k = 3 from by omega]
      exact pureFinal_three l (by omega)
  · by_cases he : k % 2 = 0
    · exact pureFinal_even k l h4 he hkl
    · exact pureFinal_odd k l (by omega) (by omega) hkl

theorem heapLoop_run (lv2 : Nat) (l : List Nat) (hkl : lv2 + 2 ≤ l.length)
    (hP : ∀ a : List Nat, a.length = l.length →
      (heapPermute (lv2+1) a).1 = heapFinal (lv2+1) a) :
    ∀ (m i : Nat) (acc : List (List Nat)), i + m ≤ lv2 + 1 →
      heapLoop lv2 (List.range' i m)
          (heapFinal (lv2+1) (blockStarts (lv2+2) l i)) acc =
        (heapFinal (lv2+1) (blockStarts (lv2+2) l (i+m)),
         acc ++ List.flatten ((List.range' (i+1) m).map
           fun t => (heapPermute (lv2+1) (blockStarts (lv2+2) l t)).2)) := by
  intro m
  induction m with
  | zero =>
    intro i acc _
    rw [show List.range' i 0 = [] from rfl, heapLoop]
    simp
  | succ m ih =>
    intro i acc him
    rw [List.range'_succ]
    have hstep : ∀ (arr : List Nat) (acc2 : List (List Nat)),
        heapLoop lv2 (i :: List.range' (i+1) m) arr acc2 =
          heapLoop lv2 (List.range' (i+1) m)
            (heapPermute (lv2+1) (if (lv2 + 2) % 2 = 0 then swapL arr i (lv2+1)
              else swapL arr 0 (lv2+1))).1
            (acc2 ++ (heapPermute (lv2+1) (if (lv2 + 2) % 2 = 0 then swapL arr i (lv2+1)
              else swapL arr 0 (lv2+1))).2) := by
      intro arr acc2
      rw [heapLoop]
    have harr1 : (if (lv2 + 2) % 2 = 0
          then swapL (heapFinal (lv2+1) (blockStarts (lv2+2) l i)) i (lv2+1)
          else swapL (heapFinal (lv2+1) (blockStarts (lv2+2) l i)) 0 (lv2+1)) =
        blockStarts (lv2+2) l (i+1) := by
      rw [blockStarts]
      unfold stepArr
      rfl
    have hplen : (blockStarts (lv2+2) l (i+1)).length = l.length :=
      blockStarts_length (lv2+2) l hkl (by omega) (i+1)
    rw [hstep, harr1, hP (blockStarts (lv2+2) l (i+1)) hplen,
      ih (i+1) (acc ++ (heapPermute (lv2+1) (blockStarts (lv2+2) l (i+1))).2)
        (by omega),
      show i+1+m = i+(m+1) from by omega,
      List.range'_succ, List.map_cons, List.flatten_cons, ← List.append_assoc]

theorem heapFinal_eq : ∀ (k : Nat) (l : List Nat), k ≤ l.length →
    (heapPermute k l).1 = heapFinal k l := by
  intro k
  induction k with
  | zero =>
    intro l _
    rw [heapPermute]
    simp [heapFinal]
  | succ n ihn =>
    cases n with
    | zero =>
      intro l _
      rw [heapPermute]
      simp [heapFinal]
    | succ m =>
      intro l hkl
      have heq : heapPermute (m+2) l =
          heapLoop m (List.range (m+1)) (heapPermute (m+1) l).1
            (heapPermute (m+1) l).2 := by
        rw [heapPermute]
      have h0 : (heapPermute (m+1) l).1 = heapFinal (m+1) (blockStarts (m+2) l 0) :=
        ihn l (by omega)
      have hrun := heapLoop_run m l hkl (fun a ha => ihn a (by rw [ha]; omega))
        (m+1) 0 (heapPermute (m+1) l).2 (by omega)
      rw [heq, List.range_eq_range', h0, hrun]
      show heapFinal (m+1) (blockStarts (m+2) l (0+(m+1))) = heapFinal (m+2) l
      rw [show (0:Nat)+(m+1) = m+1 from by omega]
      have hp := pureFinal (m+2) l (by omega) hkl
      rwa [show m+2-1 = m+1 from rfl] at hp

theorem heapPermute_out_blocks (n : Nat) (l : List Nat) (hkl : n + 2 ≤ l.length) :
    (heapPermute (n+2) l).2 =
      List.flatten ((List.range' 0 (n+2)).map
        fun t => (heapPermute (n+1) (blockStarts (n+2) l t)).2) := by
  have heq : heapPermute (n+2) l =
      heapLoop n (List.range (n+1)) (heapPermute (n+1) l).1
        (heapPermute (n+1) l).2 := by
    rw [heapPermute]
  have h0 : (heapPermute (n+1) l).1 = heapFinal (n+1) (blockStarts (n+2) l 0) :=
    heapFinal_eq (n+1) l (by omega)
  have hrun := heapLoop_run n l hkl
    (fun a ha => heapFinal_eq (n+1) a (by rw [ha]; omega))
    (n+1) 0 (heapPermute (n+1) l).2 (by omega)
  rw [heq, List.range_eq_range', h0, hrun]
  conv_rhs => rw [List.range'_succ]
  rw [List.map_cons, List.flatten_cons]
  rfl

/-! ### Heap's algorithm (C1): the emitted permutations are pairwise
distinct when the first `k` elements are -/

theorem heapFinal_perm (k : Nat) (a : List Nat) (h : k ≤ a.length) :
    (heapFinal k a).Perm a := by
  rw [← heapFinal_eq k a h]
  exact (heapPermute_basic k a).1.1

theorem heapFinal_drop (k : Nat) (a : List Nat) (h : k ≤ a.length) :
    (heapFinal k a).drop k = a.drop k := by
  rw [← heapFinal_eq k a h]
  exact (heapPermute_basic k a).1.2

theorem blockStarts_perm (k : Nat) (l : List Nat) (hk : 1 ≤ k) (hkl : k ≤ l.length) :
    ∀ t, (blockStarts k l t).Perm l := by
  intro t
  induction t with
  | zero => exact List.Perm.refl l
  | succ t ih =>
    show (stepArr k t (heapFinal (k-1) (blockStarts k l t))).Perm l
    have hlen : (blockStarts k l t).length = l.length := blockStarts_length k l hkl hk t
    have hf : (heapFinal (k-1) (blockStarts k l t)).Perm (blockStarts k l t) :=
      heapFinal_perm (k-1) _ (by rw [hlen]; omega)
    unfold stepArr
    split <;> exact (swapL_perm _ _ _).trans (hf.trans ih)

theorem blockStarts_drop (k : Nat) (l : List Nat) (hk : 1 ≤ k) (hkl : k ≤ l.length) :
    ∀ t, t ≤ k-1 → (blockStarts k l t).drop k = l.drop k := by
  intro t
  induction t with
  | zero => intro _; rfl
  | succ t ih =>
    intro ht1
    show (stepArr k t (heapFinal (k-1) (blockStarts k l t))).drop k = l.drop k
    have hlen : (blockStarts k l t).length = l.length := blockStarts_length k l hkl hk t
    have hfd : (heapFinal (k-1) (blockStarts k l t)).drop (k-1) =
        (blockStarts k l t).drop (k-1) :=
      heapFinal_drop (k-1) _ (by rw [hlen]; omega)
    have hfd2 : (heapFinal (k-1) (blockStarts k l t)).drop k =
        (blockStarts k l t).drop k := by
      have h2 := congrArg (List.drop 1) hfd
      rwa [List.drop_drop, List.drop_drop, show k-1+1 = k from by omega] at h2
    unfold stepArr
    split <;> rw [drop_swapL _ _ _ _ (by omega) (by omega), hfd2, ih (by omega)]

theorem take_perm_of_drop_eq {x y : List Nat} (k : Nat) (hp : x.Perm y)
    (hd : x.drop k = y.drop k) : (x.take k).Perm (y.take k) := by
  have hx := List.take_append_drop k x
  have hy := List.take_append_drop k y
  rw [← hx, ← hy, hd] at hp
  exact (List.perm_append_right_iff _).mp hp

theorem getD_eq_of_drop_eq {x y : List Nat} {n : Nat} (h : x.drop n = y.drop n) :
    x.getD n 0 = y.getD n 0 := by
  have h0 := congrArg (fun t : List Nat => t.getD 0 0) h
  simpa [List.getD_eq_getElem?_getD, List.getElem?_drop] using h0

set_option maxHeartbeats 800000 in
theorem uEvenIdx_last_lt (k t : Nat) (hk : 4 ≤ k) (ht : t ≤ k-1) :
    uEvenIdx k t (k-1) < k := by
  unfold uEvenIdx
  split_ifs <;> omega

set_option maxHeartbeats 800000 in
theorem uEvenIdx_last_inj (k a b : Nat) (hk : 4 ≤ k) (ha : a ≤ k-1) (hb : b ≤ k-1)
    (h : uEvenIdx k a (k-1) = uEvenIdx k b (k-1)) : a = b := by
  obtain ⟨m, rfl⟩ : ∃ m, k = m + 4 := ⟨k - 4, by omega⟩
  unfold uEvenIdx at h
  simp only [show m+4-1 = m+3 from rfl, show m+4-2 = m+2 from rfl,
    show m+4-3 = m+1 from rfl] at h
  split_ifs at h <;> omega

theorem sIter_last (k : Nat) (hk : 5 ≤ k) (t : Nat) (ht : t ≤ k-1) :
    sIter k t (k-1) = wOdd k t := by
  have h := sIter_wOdd k hk t 0 (by omega)
  rwa [show wOdd k 0 = k-1 from by unfold wOdd; simp, Nat.zero_add] at h

set_option maxHeartbeats 800000 in
theorem wOdd_inj (k a b : Nat) (hk : 5 ≤ k) (ha : a ≤ k-1) (hb : b ≤ k-1)
    (h : wOdd k a = wOdd k b) : a = b := by
  unfold wOdd at h
  split_ifs at h <;> omega

set_option maxHeartbeats 1600000 in
theorem blockStarts_last_inj (k : Nat) (l : List Nat) (hk : 2 ≤ k)
    (hkl : k ≤ l.length) (hnd : (l.take k).Nodup) (a b : Nat) (ha : a ≤ k-1)
    (hb : b ≤ k-1)
    (h : (blockStarts k l a).getD (k-1) 0 = (blockStarts k l b).getD (k-1) 0) :
    a = b := by
  rcases Nat.lt_or_ge k 4 with h4 | h4
  · rcases Nat.lt_or_ge k 3 with h3 | h3
    · have hk2 : k = 2 := by omega
      subst hk2
      have hu1 : blockStarts 2 l 1 = swapL l 0 1 := by
        show stepArr 2 0 (heapFinal 1 l) = _
        simp [stepArr, heapFinal]
      have hval : ∀ t, t ≤ 1 → (blockStarts 2 l t).getD 1 0 = l.getD (1-t) 0 := by
        intro t ht
        match t with
        | 0 => rfl
        | 1 =>
          rw [hu1, getD_swapL_fun l 0 1 (by omega) (by omega) 1]
          exact getD_congr l (by decide)
      rw [hval a ha, hval b hb] at h
      have := getD_inj_of_take_nodup hkl hnd (show 1-a < 2 by omega)
        (show 1-b < 2 by omega) h
      omega
    · have hk3 : k = 3 := by omega
      subst hk3
      have hu1 : blockStarts 3 l 1 = swapL (swapL l 0 1) 0 2 := by
        show stepArr 3 0 (heapFinal 2 l) = _
        simp [stepArr, heapFinal]
      have hu2 : blockStarts 3 l 2 = swapL (swapL (blockStarts 3 l 1) 0 1) 0 2 := by
        show stepArr 3 1 (heapFinal 2 (blockStarts 3 l 1)) = _
        simp [stepArr, heapFinal]
      have len1 : (swapL l 0 1).length = l.length := length_swapL _ _ _
      have lenb1 : (blockStarts 3 l 1).length = l.length :=
        blockStarts_length 3 l hkl (by omega) 1
      have lenb1s : (swapL (blockStarts 3 l 1) 0 1).length = l.length := by
        rw [length_swapL, lenb1]
      have hval : ∀ t, t ≤ 2 → (blockStarts 3 l t).getD 2 0 = l.getD (2-t) 0 := by
        intro t ht
        match t with
        | 0 => rfl
        | 1 =>
          rw [hu1, getD_swapL_fun _ 0 2 (by rw [len1]; omega) (by rw [len1]; omega) 2,
            getD_swapL_fun l 0 1 (by omega) (by omega)]
          exact getD_congr l (by decide)
        | 2 =>
          rw [hu2, getD_swapL_fun _ 0 2 (by rw [lenb1s]; omega) (by rw [lenb1s]; omega) 2,
            getD_swapL_fun _ 0 1 (by rw [lenb1]; omega) (by rw [lenb1]; omega),
            hu1, getD_swapL_fun _ 0 2 (by rw [len1]; omega) (by rw [len1]; omega),
            getD_swapL_fun l 0 1 (by omega) (by omega)]
          exact getD_congr l (by decide)
      rw [hval a ha, hval b hb] at h
      have := getD_inj_of_take_nodup hkl hnd (show 2-a < 3 by omega)
        (show 2-b < 3 by omega) h
      omega
  · by_cases he : k % 2 = 0
    · rw [blockStarts_even_getD k l h4 he hkl a ha (k-1),
        blockStarts_even_getD k l h4 he hkl b hb (k-1)] at h
      exact uEvenIdx_last_inj k a b h4 ha hb
        (getD_inj_of_take_nodup hkl hnd (uEvenIdx_last_lt k a h4 ha)
          (uEvenIdx_last_lt k b h4 hb) h)
    · have hk5 : 5 ≤ k := by omega
      have ho : k % 2 = 1 := by omega
      rw [blockStarts_odd_getD k l hk5 ho hkl a (k-1),
        blockStarts_odd_getD k l hk5 ho hkl b (k-1),
        sIter_last k hk5 a ha, sIter_last k hk5 b hb] at h
      exact wOdd_inj k a b hk5 ha hb
        (getD_inj_of_take_nodup hkl hnd (wOdd_lt k a hk5) (wOdd_lt k b hk5) h)

theorem heapPermute_nodup : ∀ (k : Nat) (l : List Nat), k ≤ l.length →
    (l.take k).Nodup → (heapPermute k l).2.Nodup := by
  intro k
  induction k with
  | zero =>
    intro l _ _
    rw [heapPermute]
    simp
  | succ n ihn =>
    cases n with
    | zero =>
      intro l _ _
      rw [heapPermute]
      simp
    | succ m =>
      intro l hkl hnd
      rw [heapPermute_out_blocks m l hkl, List.nodup_flatten]
      constructor
      · intro x hx
        rw [List.mem_map] at hx
        obtain ⟨t, htm, rfl⟩ := hx
        have htb : t ≤ m+1 := by
          have := List.mem_range'_1.mp htm
          omega
        apply ihn
        · rw [blockStarts_length (m+2) l hkl (by omega) t]
          omega
        · have hperm := blockStarts_perm (m+2) l (by omega) hkl t
          have hdrop := blockStarts_drop (m+2) l (by omega) hkl t (by omega)
          have htake : ((blockStarts (m+2) l t).take (m+2)).Perm (l.take (m+2)) :=
            take_perm_of_drop_eq (m+2) hperm hdrop
          have h1 : ((blockStarts (m+2) l t).take (m+2)).Nodup :=
            htake.nodup_iff.mpr hnd
          exact List.Nodup.sublist (List.take_sublist_take_left _ (by omega)) h1
      · rw [List.pairwise_map]
        apply List.Pairwise.imp_of_mem ?_ (List.pairwise_lt_range' 0 (m+2))
        intro a b hma hmb hab x hxa hxb
        have hba : a ≤ m+1 := by
          have := List.mem_range'_1.mp hma
          omega
        have hbb : b ≤ m+1 := by
          have := List.mem_range'_1.mp hmb
          omega
        have hda := ((heapPermute_basic (m+1) (blockStarts (m+2) l a)).2.1 x hxa).2
        have hdb := ((heapPermute_basic (m+1) (blockStarts (m+2) l b)).2.1 x hxb).2
        have hva : (blockStarts (m+2) l a).getD (m+1) 0 =
            (blockStarts (m+2) l b).getD (m+1) 0 :=
          (getD_eq_of_drop_eq hda).symm.trans (getD_eq_of_drop_eq hdb)
        have := blockStarts_last_inj (m+2) l (by omega) hkl hnd a b
          (by omega) (by omega) (by simpa using hva)
        omega

/-! ### Heap's algorithm (C1): a complete run emits exactly the
permutations of the first `k` elements (each followed by the fixed tail) -/

theorem heapPermute_perm_permutations (k : Nat) (l : List Nat) (h1 : 1 ≤ k)
    (hkl : k ≤ l.length) (hnd : (l.take k).Nodup) :
    (heapPermute k l).2.Perm ((l.take k).permutations.map (· ++ l.drop k)) := by
  have hsub : (heapPermute k l).2 ⊆ (l.take k).permutations.map (· ++ l.drop k) := by
    intro x hx
    obtain ⟨hxp, hxd⟩ := (heapPermute_basic k l).2.1 x hx
    have hxt : (x.take k).Perm (l.take k) := take_perm_of_drop_eq k hxp hxd
    rw [List.mem_map]
    refine ⟨x.take k, List.mem_permutations.mpr hxt, ?_⟩
    rw [← hxd]
    exact List.take_append_drop k x
  have hnodup := heapPermute_nodup k l hkl hnd
  have hlen1 : (heapPermute k l).2.length = k.factorial :=
    (heapPermute_basic k l).2.2 h1
  have hlen2 : ((l.take k).permutations.map (· ++ l.drop k)).length = k.factorial := by
    rw [List.length_map, List.length_permutations, List.length_take,
      Nat.min_eq_left hkl]
  exact (hnodup.subperm hsub).perm_of_length_le (by omega)

theorem map_getD_range (toks : List String) :
    (List.range toks.length).map (fun j => toks.getD j "") = toks := by
  apply List.ext_getElem
  · simp
  · intro i h1 h2
    simp [List.getD_eq_getElem?_getD, List.getElem?_eq_getElem h2]

theorem getListPermutations_spec (controller : String) (toks : List String)
    (hsplit : splitIdentifierString controller ',' = some toks) (hne : toks ≠ [])
    (hlen : toks.length ≤ maxPermArrLen) :
    ∃ perms, getListPermutations controller = some perms ∧
      perms.Perm (toks.permutations.map joinComma) := by
  have hmax : ¬ toks.length > maxPermArrLen := by omega
  have hgl : getListPermutations controller =
      some ((heapPermute toks.length (List.range toks.length)).2.map
        fun pidx => joinComma (pidx.map fun j => toks.getD j "")) := by
    unfold getListPermutations
    rw [hsplit]
    simp only [hmax, if_false]
  refine ⟨_, hgl, ?_⟩
  have hn1 : 1 ≤ toks.length := by
    have := List.length_pos.mpr hne
    omega
  have hperm : (heapPermute toks.length (List.range toks.length)).2.Perm
      ((List.range toks.length).permutations) := by
    have h := heapPermute_perm_permutations toks.length (List.range toks.length)
      hn1 (by simp) (by rw [List.take_of_length_le (by simp)]; exact List.nodup_range _)
    rw [List.take_of_length_le (by simp), List.drop_of_length_le (by simp)] at h
    simpa using h
  have h2 := hperm.map (fun pidx => joinComma (pidx.map fun j => toks.getD j ""))
  have h3 : ((List.range toks.length).permutations.map
        fun pidx => joinComma (pidx.map fun j => toks.getD j "")) =
      ((List.range toks.length).permutations.map
        (List.map fun j => toks.getD j "")).map joinComma := by
    rw [List.map_map]
    rfl
  have h4 : ((List.range toks.length).permutations.map
        (List.map fun j => toks.getD j "")) = toks.permutations := by
    rw [List.map_permutations, map_getD_range]
  rw [h3, h4] at h2
  exact h2

/-! ### Heap's algorithm (C1): `SplitIdentifierString` succeeds only with a
nonempty name list -/

theorem splitIdentAfter_ne_nil (next : List Char → Option (List String))
    (sep : Char) (name : String) (rest : List Char) (ns : List String)
    (h : splitIdentAfter next sep name rest = some ns) : ns ≠ [] := by
  unfold splitIdentAfter at h
  rcases hdw : rest.dropWhile isSpaceChar with _ | ⟨c, t⟩ <;> rw [hdw] at h
  · simp only [Option.some_inj] at h
    subst h
    simp
  · dsimp only at h
    by_cases hc : c = sep
    · rw [if_pos hc] at h
      obtain ⟨ns2, hns2, hf⟩ := Option.map_eq_some'.mp h
      rw [← hf]
      simp
    · rw [if_neg hc] at h
      exact absurd h (by simp)

theorem splitIdentGo_ne_nil (fuel : Nat) (sep : Char) (cs : List Char)
    (ns : List String) (h : splitIdentGo fuel sep cs = some ns) : ns ≠ [] := by
  match fuel with
  | 0 =>
    rw [splitIdentGo] at h
    exact absurd h (by simp)
  | fuel+1 =>
    unfold splitIdentGo at h
    split at h
    · split at h
      · exact absurd h (by simp)
      · exact splitIdentAfter_ne_nil _ _ _ _ _ h
    · dsimp only at h
      split at h
      · exact absurd h (by simp)
      · exact splitIdentAfter_ne_nil _ _ _ _ _ h

theorem splitIdentifierString_ne_nil (s : String) (toks : List String)
    (hc : s.data.contains ',') (h : splitIdentifierString s ',' = some toks) :
    toks ≠ [] := by
  unfold splitIdentifierString at h
  rw [if_neg ?_] at h
  · exact splitIdentGo_ne_nil _ _ _ _ h
  · intro hE
    rw [List.isEmpty_iff, List.dropWhile_eq_nil_iff] at hE
    have hmem : ',' ∈ s.data := by simpa using hc
    have := hE ',' hmem
    simp [isSpaceChar] at this

/-- C1: for every controller key containing a comma (as stored from a v1
self-cgroup line), `check_and_fix_controller_path` first tests the
candidate path built from the list as given and accepts it if it exists
on disk (`fs`); otherwise, when the comma-split token list parses and has
at most `MAX_PERM_ARRLEN = 10` tokens, `get_list_permutations` returns a
list that is exactly (a permutation of) all permutations of the tokens,
each rejoined with commas, and the function records the candidate path of
the first permutation whose path exists, or the sentinel
`Controller_Not_Found` if none exists; a parse failure or a list of more
than 10 tokens likewise records the sentinel instead of failing. -/
theorem permutationFallback_spec (fs : String → Bool) (ctz : Bool)
    (root controller r : String) (hc : controller.data.contains ',') :
    (fs (candidateControllerPath ctz root controller r) = true →
      checkAndFixControllerPath fs ctz root controller r =
        candidateControllerPath ctz root controller r) ∧
    (fs (candidateControllerPath ctz root controller r) = false →
      (splitIdentifierString controller ',' = none →
        checkAndFixControllerPath fs ctz root controller r = controllerNotFound) ∧
      (∀ toks, splitIdentifierString controller ',' = some toks →
        (toks.length > maxPermArrLen →
          checkAndFixControllerPath fs ctz root controller r = controllerNotFound) ∧
        (toks.length ≤ maxPermArrLen →
          ∃ perms, getListPermutations controller = some perms ∧
            perms.Perm (toks.permutations.map joinComma) ∧
            (∀ p, perms.find?
                (fun q => fs (candidateControllerPath ctz root q r)) = some p →
              checkAndFixControllerPath fs ctz root controller r =
                candidateControllerPath ctz root p r) ∧
            (perms.find?
                (fun q => fs (candidateControllerPath ctz root q r)) = none →
              checkAndFixControllerPath fs ctz root controller r =
                controllerNotFound)))) := by
  have hmem : ',' ∈ controller.data := by simpa using hc
  refine ⟨?_, ?_⟩
  · intro hft
    simp only [checkAndFixControllerPath]
    rw [if_neg (by simp [hmem]), if_pos hft]
  · intro hff
    refine ⟨?_, ?_⟩
    · intro hsplit
      simp only [checkAndFixControllerPath]
      rw [if_neg (by simp [hmem]), if_neg (by simp [hff])]
      have hgl : getListPermutations controller = none := by
        unfold getListPermutations
        rw [hsplit]
      rw [hgl]
    · intro toks hsplit
      refine ⟨?_, ?_⟩
      · intro hbig
        simp only [checkAndFixControllerPath]
        rw [if_neg (by simp [hmem]), if_neg (by simp [hff])]
        have hgl : getListPermutations controller = none := by
          unfold getListPermutations
          rw [hsplit]
          simp [hbig]
        rw [hgl]
      · intro hsmall
        obtain ⟨perms, hgl, hperm⟩ := getListPermutations_spec controller toks hsplit
          (splitIdentifierString_ne_nil controller toks hc hsplit) hsmall
        refine ⟨perms, hgl, hperm, ?_, ?_⟩
        · intro p hfind
          simp only [checkAndFixControllerPath]
          rw [if_neg (by simp [hmem]), if_neg (by simp [hff]), hgl]
          dsimp only
          rw [hfind]
        · intro hfind
          simp only [checkAndFixControllerPath]
          rw [if_neg (by simp [hmem]), if_neg (by simp [hff]), hgl]
          dsimp only
          rw [hfind]

/-- C1 witness: for controller `"cpu,cpuacct"` when only the directory
`cpuacct,cpu` exists on disk, resolution finds and records that permuted
path, and `get_list_permutations` produced exactly the `2! = 2`
comma-joined permutations. -/
theorem permutationFallback_spec_witness :
    checkAndFixControllerPath (fun s => s == "/r/cpuacct,cpu/p") false "/r"
      "cpu,cpuacct" "p" = "/r/cpuacct,cpu/p" ∧
    (∃ perms, getListPermutations "cpu,cpuacct" = some perms ∧
      perms.Perm ["cpu,cpuacct", "cpuacct,cpu"]) := by
  have h := permutationFallback_spec (fun s => s == "/r/cpuacct,cpu/p") false "/r"
    "cpu,cpuacct" "p" (by decide)
  have hsplit : splitIdentifierString "cpu,cpuacct" ',' = some ["cpu", "cpuacct"] := by
    rfl
  have h2 := (h.2 (by decide)).2 ["cpu","cpuacct"] hsplit
  obtain ⟨perms, hgl, hperm, hsome, hnone⟩ := h2.2 (by decide)
  have hpermL : perms.Perm ["cpu,cpuacct", "cpuacct,cpu"] := by
    refine hperm.trans ?_
    refine (List.Perm.map joinComma
      (List.permutations_perm_permutations' (["cpu","cpuacct"] : List String))).trans ?_
    rw [show List.map joinComma ((["cpu","cpuacct"] : List String).permutations') =
      ["cpu,cpuacct", "cpuacct,cpu"] from rfl]
  refine ⟨?_, ⟨perms, hgl, hpermL⟩⟩
  rcases hfind : perms.find?
      (fun q => (fun s => s == "/r/cpuacct,cpu/p")
        (candidateControllerPath false "/r" q "p")) with _ | p
  · exfalso
    have hmem : "cpuacct,cpu" ∈ perms := hpermL.symm.subset (by simp)
    have hno := List.find?_eq_none.mp hfind _ hmem
    exact hno (by decide)
  · have hp := List.find?_some hfind
    have hpm := List.mem_of_find?_eq_some hfind
    have hpval : p = "cpuacct,cpu" := by
      have hpm2 := hpermL.subset hpm
      rcases (by simpa using hpm2 : p = "cpu,cpuacct" ∨ p = "cpuacct,cpu") with rfl | rfl
      · exact absurd hp (by decide)
      · rfl
    subst hpval
    rw [hsome _ hfind]
    rfl

end Pgnodemx
